import Mathlib

/-!
Verification development for the Set / SetElement core of the MEGA SDK
(`src/setandelement.cpp`): shared attribute management (`CommonSE`), the two
entity types `Set` (Collection) and `SetElement` (Member), and their binary
cache/wire codec.

Modelling conventions:
* C++ `std::string` (a byte string) is modelled as `Str := List Nat`, one
  `Nat` per byte.
* C++ `std::map<string,string>` (`string_map`) is modelled as `Smap`, an
  association list kept strictly sorted by key in lexicographic byte order —
  exactly the iteration order of `std::map`.
* `unique_ptr<string_map>` / `unique_ptr<string>` members are `Option`s:
  `none` is the null pointer ("absent"), `some` is an allocated value.
* Machine integers are `Nat` (unsigned) or `Int` (signed) with explicit
  `% 2^w` reasoning at the codec boundary.
Definitions are transcribed from `src/setandelement.cpp`; code of this
repository that is not under `src/` (the `CacheableWriter`/`CacheableReader`
primitives from `utils.cpp`, the `Base64` helper, and the trivial accessors
and constructors from `setandelement.h`) is modelled from the specification
and marked `Modelled from the spec:` in its doc comment.
-/

namespace SetAndElement

/-- A C++ byte string (`std::string`): a list of bytes. -/
abbrev Str := List Nat

/-- Strict lexicographic order on byte strings: the comparison used by
`std::map<std::string, std::string>` for its key order. -/
def blex : Str → Str → Bool
  | [], [] => false
  | [], _ :: _ => true
  | _ :: _, [] => false
  | a :: as, b :: bs => if a < b then true else if b < a then false else blex as bs

theorem blex_irrefl (a : Str) : blex a a = false := by
  induction a with
  | nil => rfl
  | cons x xs ih => simp [blex, ih]

theorem blex_asymm {a b : Str} (h : blex a b = true) : blex b a = false := by
  induction a generalizing b with
  | nil =>
    cases b with
    | nil => simp [blex] at h
    | cons y ys => simp [blex]
  | cons x xs ih =>
    cases b with
    | nil => simp [blex] at h
    | cons y ys =>
      simp only [blex] at h ⊢
      rcases Nat.lt_trichotomy x y with hlt | heq | hgt
      · simp [hlt, Nat.not_lt.mpr (Nat.le_of_lt hlt), Nat.lt_asymm hlt]
      · subst heq
        simp only [Nat.lt_irrefl, if_false] at h ⊢
        exact ih h
      · simp [hgt, Nat.not_lt.mpr (Nat.le_of_lt hgt), Nat.lt_asymm hgt] at h

theorem blex_total {a b : Str} (hab : blex a b = false) (hba : blex b a = false) :
    a = b := by
  induction a generalizing b with
  | nil =>
    cases b with
    | nil => rfl
    | cons y ys => simp [blex] at hab
  | cons x xs ih =>
    cases b with
    | nil => simp [blex] at hba
    | cons y ys =>
      simp only [blex] at hab hba
      rcases Nat.lt_trichotomy x y with hlt | heq | hgt
      · simp [hlt] at hab
      · subst heq
        simp only [Nat.lt_irrefl, if_false] at hab hba
        exact congrArg (x :: ·) (ih hab hba)
      · simp [hgt] at hba

theorem blex_trans {a b c : Str} (hab : blex a b = true) (hbc : blex b c = true) :
    blex a c = true := by
  induction a generalizing b c with
  | nil =>
    cases c with
    | nil =>
      cases b with
      | nil => exact hab
      | cons y ys => simp [blex] at hbc
    | cons z zs => simp [blex]
  | cons x xs ih =>
    cases b with
    | nil => simp [blex] at hab
    | cons y ys =>
      cases c with
      | nil => simp [blex] at hbc
      | cons z zs =>
        simp only [blex] at hab hbc ⊢
        rcases Nat.lt_trichotomy x y with hxy | hxy | hxy
        · rcases Nat.lt_trichotomy y z with hyz | hyz | hyz
          · simp [Nat.lt_trans hxy hyz]
          · subst hyz; simp [hxy]
          · simp [hyz, Nat.not_lt.mpr (Nat.le_of_lt hyz), Nat.lt_asymm hyz] at hbc
        · subst hxy
          rcases Nat.lt_trichotomy x z with hyz | hyz | hyz
          · simp [hyz]
          · subst hyz
            simp only [Nat.lt_irrefl, if_false] at hab hbc ⊢
            exact ih hab hbc
          · simp [hyz, Nat.not_lt.mpr (Nat.le_of_lt hyz), Nat.lt_asymm hyz] at hbc
        · simp [hxy, Nat.not_lt.mpr (Nat.le_of_lt hxy), Nat.lt_asymm hxy] at hab

/-- A C++ `string_map` (`std::map<std::string, std::string>`): an association
list of (tag, value) pairs, kept strictly sorted by `blex` on the keys, which
is the iteration order of `std::map`. -/
abbrev Smap := List (Str × Str)

/-- Well-formedness of an `Smap`: keys strictly increasing in `blex`, so they
are also pairwise distinct — the invariant `std::map` maintains. -/
def Smap.Sorted (m : Smap) : Prop :=
  List.Pairwise (fun a b => blex a.1 b.1 = true) m

instance (m : Smap) : Decidable m.Sorted := by
  unfold Smap.Sorted; infer_instance

/-- Lookup (`std::map::find`): first value bound to `tag`, if any. -/
def Smap.get : Smap → Str → Option Str
  | [], _ => none
  | (k, v) :: rest, tag => if tag = k then some v else Smap.get rest tag

/-- Insert-or-assign (`map[tag] = value`), preserving the sorted order. -/
def Smap.insert : Smap → Str → Str → Smap
  | [], tag, value => [(tag, value)]
  | (k, v) :: rest, tag, value =>
    if tag = k then (tag, value) :: rest
    else if blex tag k then (tag, value) :: (k, v) :: rest
    else (k, v) :: Smap.insert rest tag value

/-- Erase a key (`std::map::erase`). -/
def Smap.erase : Smap → Str → Smap
  | [], _ => []
  | (k, v) :: rest, tag => if tag = k then rest else (k, v) :: Smap.erase rest tag

/-- Build a map by inserting the pairs left to right: `attrs[ak] = av` applied
to each decoded pair in order. -/
def Smap.ofPairs (ps : List (Str × Str)) : Smap :=
  ps.foldl (fun m p => m.insert p.1 p.2) []

theorem Smap.get_insert (m : Smap) (k v tag : Str) :
    (m.insert k v).get tag = if tag = k then some v else m.get tag := by
  induction m with
  | nil => simp [Smap.insert, Smap.get]
  | cons p rest ih =>
    obtain ⟨k', v'⟩ := p
    by_cases hk : k = k'
    · subst hk
      by_cases ht : tag = k <;> simp [Smap.insert, Smap.get, ht]
    · simp only [Smap.insert, if_neg hk]
      by_cases hb : blex k k'
      · by_cases ht : tag = k <;> simp [Smap.get, ht, hb]
      · by_cases ht : tag = k'
        · subst ht
          rw [if_neg hb]
          have hne : tag ≠ k := fun h => hk h.symm
          simp [Smap.get, hne]
        · simp [Smap.get, ht, hb, ih]

/-- A key that is strictly below every key of the map is unbound. -/
theorem Smap.get_none_of_lt (m : Smap) (tag : Str)
    (h : ∀ p ∈ m, blex tag p.1 = true) : m.get tag = none := by
  induction m with
  | nil => rfl
  | cons p rest ih =>
    obtain ⟨k, v⟩ := p
    have hgt : blex tag k = true := h (k, v) (List.mem_cons_self _ _)
    have hne : tag ≠ k := by
      intro he; rw [he, blex_irrefl] at hgt; exact Bool.false_ne_true hgt
    simp only [Smap.get, if_neg hne]
    exact ih fun q hq => h q (List.mem_cons_of_mem _ hq)

theorem Smap.get_erase (m : Smap) (hm : m.Sorted) (k tag : Str) :
    (m.erase k).get tag = if tag = k then none else m.get tag := by
  induction m with
  | nil => simp [Smap.erase, Smap.get]
  | cons p rest ih =>
    obtain ⟨k', v'⟩ := p
    rw [Smap.Sorted, List.pairwise_cons] at hm
    by_cases hk : k = k'
    · subst hk
      by_cases ht : tag = k
      · subst ht
        simp only [Smap.erase, if_pos rfl, if_pos rfl]
        exact Smap.get_none_of_lt rest tag hm.1
      · simp [Smap.erase, Smap.get, ht]
    · simp only [Smap.erase, if_neg hk]
      by_cases ht : tag = k'
      · subst ht
        have hne : tag ≠ k := fun h => hk h.symm
        simp [Smap.get, hne]
      · simp [Smap.get, ht, ih hm.2]

theorem Smap.mem_insert {m : Smap} {k v : Str} {q : Str × Str}
    (hq : q ∈ m.insert k v) : q = (k, v) ∨ q ∈ m := by
  induction m with
  | nil =>
    rw [Smap.insert, List.mem_singleton] at hq
    exact Or.inl hq
  | cons r rs ih =>
    obtain ⟨kr, vr⟩ := r
    by_cases h1 : k = kr
    · rw [Smap.insert, if_pos h1] at hq
      rcases List.mem_cons.mp hq with he | hqq
      · exact Or.inl he
      · exact Or.inr (List.mem_cons_of_mem _ hqq)
    · rw [Smap.insert, if_neg h1] at hq
      by_cases h2 : blex k kr
      · rw [if_pos h2] at hq
        rcases List.mem_cons.mp hq with he | hqq
        · exact Or.inl he
        · exact Or.inr hqq
      · rw [if_neg h2] at hq
        rcases List.mem_cons.mp hq with he | hqq
        · exact Or.inr (List.mem_cons.mpr (Or.inl he))
        · rcases ih hqq with h3 | h3
          · exact Or.inl h3
          · exact Or.inr (List.mem_cons_of_mem _ h3)

theorem Smap.mem_erase {m : Smap} {k : Str} {q : Str × Str}
    (hq : q ∈ m.erase k) : q ∈ m := by
  induction m with
  | nil => simp [Smap.erase] at hq
  | cons r rs ih =>
    obtain ⟨kr, vr⟩ := r
    by_cases h1 : k = kr
    · rw [Smap.erase, if_pos h1] at hq
      exact List.mem_cons_of_mem _ hq
    · rw [Smap.erase, if_neg h1] at hq
      rcases List.mem_cons.mp hq with he | hqq
      · exact List.mem_cons.mpr (Or.inl he)
      · exact List.mem_cons_of_mem _ (ih hqq)

theorem Smap.insert_sorted (m : Smap) (hm : m.Sorted) (k v : Str) :
    (m.insert k v).Sorted := by
  induction m with
  | nil => simp [Smap.insert, Smap.Sorted]
  | cons p rest ih =>
    obtain ⟨k', v'⟩ := p
    rw [Smap.Sorted, List.pairwise_cons] at hm
    by_cases hk : k = k'
    · subst hk
      rw [Smap.insert, if_pos rfl, Smap.Sorted, List.pairwise_cons]
      exact ⟨hm.1, hm.2⟩
    · rw [Smap.insert, if_neg hk]
      by_cases hb : blex k k'
      · rw [if_pos hb, Smap.Sorted, List.pairwise_cons]
        refine ⟨?_, List.pairwise_cons.mpr hm⟩
        intro q hq
        rcases List.mem_cons.mp hq with he | hq
        · rw [he]; exact hb
        · exact blex_trans hb (hm.1 q hq)
      · rw [if_neg hb]
        have hlt : blex k' k = true := by
          rcases Bool.eq_false_or_eq_true (blex k' k) with h | h
          · exact h
          · exact absurd (blex_total (Bool.eq_false_iff.mpr (fun hh => hb hh)) h) hk
        rw [Smap.Sorted, List.pairwise_cons]
        refine ⟨?_, ih hm.2⟩
        intro q hq
        rcases Smap.mem_insert hq with he | hq2
        · rw [he]; exact hlt
        · exact hm.1 q hq2

theorem Smap.get_some_mem {m : Smap} {tag v : Str} (h : m.get tag = some v) :
    (tag, v) ∈ m := by
  induction m with
  | nil => simp [Smap.get] at h
  | cons p rest ih =>
    obtain ⟨k, w⟩ := p
    by_cases ht : tag = k
    · rw [Smap.get, if_pos ht] at h
      exact List.mem_cons.mpr (Or.inl (by rw [ht, Option.some_inj.mp h]))
    · rw [Smap.get, if_neg ht] at h
      exact List.mem_cons_of_mem _ (ih h)

/-- A key not bound by `get` is bound by no pair of the list. -/
theorem Smap.get_none_not_mem {m : Smap} {tag : Str} (h : m.get tag = none)
    {v : Str} : (tag, v) ∉ m := by
  induction m with
  | nil => simp
  | cons p rest ih =>
    obtain ⟨k, w⟩ := p
    by_cases ht : tag = k
    · rw [Smap.get, if_pos ht] at h; exact Option.noConfusion h
    · rw [Smap.get, if_neg ht] at h
      intro hmem
      rcases List.mem_cons.mp hmem with he | hmem'
      · exact ht (congrArg Prod.fst he)
      · exact ih h hmem'

/-- In a sorted map the tail never binds the head key. -/
theorem Smap.get_tail_head_none {k v : Str} {rest : Smap}
    (h : Smap.Sorted ((k, v) :: rest)) : rest.get k = none := by
  rw [Smap.Sorted, List.pairwise_cons] at h
  exact Smap.get_none_of_lt rest k h.1

theorem Smap.erase_sorted (m : Smap) (hm : m.Sorted) (k : Str) :
    (m.erase k).Sorted := by
  induction m with
  | nil => simp [Smap.erase, Smap.Sorted]
  | cons p rest ih =>
    obtain ⟨k', v'⟩ := p
    rw [Smap.Sorted, List.pairwise_cons] at hm
    by_cases hk : k = k'
    · rw [Smap.erase, if_pos hk]; exact hm.2
    · rw [Smap.erase, if_neg hk, Smap.Sorted, List.pairwise_cons]
      exact ⟨fun q hq => hm.1 q (Smap.mem_erase hq), ih hm.2⟩

/-- Two sorted maps binding every key identically are the same list. -/
theorem Smap.ext_sorted (m₁ m₂ : Smap) (h₁ : m₁.Sorted) (h₂ : m₂.Sorted)
    (h : ∀ tag, m₁.get tag = m₂.get tag) : m₁ = m₂ := by
  induction m₁ generalizing m₂ with
  | nil =>
    cases m₂ with
    | nil => rfl
    | cons q qs =>
      have := h q.1
      simp [Smap.get] at this
  | cons p ps ih =>
    cases m₂ with
    | nil =>
      have := h p.1
      simp [Smap.get] at this
    | cons q qs =>
      obtain ⟨k₁, v₁⟩ := p
      obtain ⟨k₂, v₂⟩ := q
      rw [Smap.Sorted, List.pairwise_cons] at h₁ h₂
      have hk : k₁ = k₂ := by
        by_contra hne
        rcases Bool.eq_false_or_eq_true (blex k₁ k₂) with hb | hb
        · -- k₁ < k₂ : k₁ unbound in m₂ but bound in m₁
          have hg := h k₁
          rw [Smap.get, if_pos rfl, Smap.get, if_neg hne,
            Smap.get_none_of_lt qs k₁ (fun r hr => blex_trans hb (h₂.1 r hr))] at hg
          exact Option.noConfusion hg
        · rcases Bool.eq_false_or_eq_true (blex k₂ k₁) with hb' | hb'
          · -- k₂ < k₁ : k₂ unbound in m₁ but bound in m₂
            have hg := h k₂
            have hne' : k₂ ≠ k₁ := fun he => hne he.symm
            rw [Smap.get, if_neg hne',
              Smap.get_none_of_lt ps k₂ (fun r hr => blex_trans hb' (h₁.1 r hr))] at hg
            simp [Smap.get] at hg
          · exact hne (blex_total hb hb')
      subst hk
      have hv : v₁ = v₂ := by
        have hg := h k₁
        rw [Smap.get, if_pos rfl, Smap.get, if_pos rfl] at hg
        exact Option.some_inj.mp hg
      subst hv
      refine congrArg _ (ih qs h₁.2 h₂.2 fun tag => ?_)
      by_cases ht : tag = k₁
      · subst ht
        rw [Smap.get_none_of_lt ps tag h₁.1, Smap.get_none_of_lt qs tag h₂.1]
      · have hg := h tag
        rwa [Smap.get, if_neg ht, Smap.get, if_neg ht] at hg

/-- Keys of a sorted map are pairwise distinct. -/
theorem Smap.keys_nodup (m : Smap) (hm : m.Sorted) : (m.map Prod.fst).Nodup := by
  refine List.Pairwise.map Prod.fst ?_ hm
  intro a b hab he
  rw [he, blex_irrefl] at hab
  exact Bool.false_ne_true hab

/-- One iteration of the rebase loop of `CommonSE::rebaseCommonAttrsOn`:
an empty local value erases the key from the result, a non-empty one
overrides it (`rebased[a.first].swap(a.second)`). -/
def Smap.rebaseStep (acc : Smap) (a : Str × Str) : Smap :=
  if a.2 = [] then acc.erase a.1 else acc.insert a.1 a.2

theorem Smap.rebaseStep_sorted (acc : Smap) (ha : acc.Sorted) (a : Str × Str) :
    (Smap.rebaseStep acc a).Sorted := by
  rw [Smap.rebaseStep]
  by_cases he : a.2 = []
  · rw [if_pos he]; exact Smap.erase_sorted acc ha a.1
  · rw [if_neg he]; exact Smap.insert_sorted acc ha a.1 a.2

theorem Smap.foldl_rebaseStep_sorted (lm : Smap) (bm : Smap) (hb : bm.Sorted) :
    (lm.foldl Smap.rebaseStep bm).Sorted := by
  induction lm generalizing bm with
  | nil => exact hb
  | cons a ps ih => exact ih (Smap.rebaseStep bm a) (Smap.rebaseStep_sorted bm hb a)

/-- The rebase loop computes, pointwise: a non-empty local value overrides the
base, an empty local value deletes the key, an unbound key keeps the base
value. -/
theorem Smap.foldl_rebaseStep_get (lm : Smap) (hl : lm.Sorted) (bm : Smap)
    (hb : bm.Sorted) (tag : Str) :
    (lm.foldl Smap.rebaseStep bm).get tag =
      match lm.get tag with
      | some v => if v = [] then none else some v
      | none => bm.get tag := by
  induction lm generalizing bm with
  | nil => rfl
  | cons a ps ih =>
    obtain ⟨k, v⟩ := a
    rw [List.foldl_cons,
      ih (List.Pairwise.of_cons hl) (Smap.rebaseStep bm (k, v))
        (Smap.rebaseStep_sorted bm hb (k, v))]
    by_cases ht : tag = k
    · subst ht
      rw [Smap.get_tail_head_none hl]
      rw [Smap.rebaseStep]
      by_cases he : v = []
      · rw [if_pos he, Smap.get_erase bm hb tag tag, if_pos rfl,
          Smap.get, if_pos rfl]
        simp [he]
      · rw [if_neg he, Smap.get_insert bm tag v tag, if_pos rfl,
          Smap.get, if_pos rfl]
        simp [he]
    · rw [Smap.get, if_neg ht]
      cases hps : Smap.get ps tag with
      | some w => rfl
      | none =>
        rw [Smap.rebaseStep]
        by_cases he : v = []
        · rw [if_pos he, Smap.get_erase bm hb k tag, if_neg ht]
        · rw [if_neg he, Smap.get_insert bm k v tag, if_neg ht]

/-- Values produced by the rebase loop all come from the base or from the
local map. -/
theorem Smap.foldl_rebaseStep_values (lm : Smap) (bm : Smap) (P : Str → Prop)
    (hb : ∀ p ∈ bm, P p.2) (hl : ∀ p ∈ lm, P p.2) :
    ∀ p ∈ lm.foldl Smap.rebaseStep bm, P p.2 := by
  induction lm generalizing bm with
  | nil => exact hb
  | cons a ps ih =>
    rw [List.foldl_cons]
    refine ih (Smap.rebaseStep bm a) ?_ fun p hp => hl p (List.mem_cons_of_mem _ hp)
    intro p hp
    rw [Smap.rebaseStep] at hp
    by_cases he : a.2 = []
    · rw [if_pos he] at hp
      exact hb p (Smap.mem_erase hp)
    · rw [if_neg he] at hp
      rcases Smap.mem_insert hp with heq | hp'
      · rw [heq]
        exact hl a (List.mem_cons_self _ _)
      · exact hb p hp'

theorem Smap.foldl_insert_sorted (ps : List (Str × Str)) (m₀ : Smap)
    (h₀ : m₀.Sorted) : (ps.foldl (fun m p => m.insert p.1 p.2) m₀).Sorted := by
  induction ps generalizing m₀ with
  | nil => exact h₀
  | cons a qs ih => exact ih (m₀.insert a.1 a.2) (Smap.insert_sorted m₀ h₀ a.1 a.2)

/-- Inserting the pairs of a list with distinct keys, left to right, binds
each key to its (unique) listed value and leaves other keys to the start
map. -/
theorem Smap.foldl_insert_get (ps : List (Str × Str))
    (hps : (ps.map Prod.fst).Nodup) (m₀ : Smap) (tag : Str) :
    (ps.foldl (fun m p => m.insert p.1 p.2) m₀).get tag =
      match Smap.get ps tag with
      | some v => some v
      | none => m₀.get tag := by
  induction ps generalizing m₀ with
  | nil => rfl
  | cons a qs ih =>
    obtain ⟨k, v⟩ := a
    rw [List.map_cons, List.nodup_cons] at hps
    rw [List.foldl_cons, ih hps.2 (m₀.insert k v)]
    by_cases ht : tag = k
    · subst ht
      have hq : Smap.get qs tag = none := by
        cases hg : Smap.get qs tag with
        | none => rfl
        | some w =>
          exact absurd (List.mem_map.mpr ⟨(tag, w), Smap.get_some_mem hg, rfl⟩) hps.1
      rw [hq, Smap.get_insert m₀ tag v tag, if_pos rfl, Smap.get, if_pos rfl]
    · rw [Smap.get, if_neg ht]
      cases hq : Smap.get qs tag with
      | some w => rfl
      | none => rw [Smap.get_insert m₀ k v tag, if_neg ht]

/-- Re-inserting the pairs of a sorted map into an empty map rebuilds it:
decoding the serialized pair list of a `string_map` reconstructs the map. -/
theorem Smap.ofPairs_sorted_self (m : Smap) (hm : m.Sorted) :
    Smap.ofPairs m = m := by
  refine Smap.ext_sorted _ m
    (Smap.foldl_insert_sorted m [] (by simp [Smap.Sorted])) hm fun tag => ?_
  rw [Smap.ofPairs, Smap.foldl_insert_get m (Smap.keys_nodup m hm) [] tag]
  cases h : m.get tag with
  | some v => rfl
  | none => rfl

/-! ## Byte-level codec primitives

Modelled from the spec: the `CacheableWriter` / `CacheableReader` primitives
(`serializehandle`, `serializenodehandle`, `serializei64`, `serializeu32`,
`serializecompressed64`, `serializestring`, `serializeexpansionflags` and
their `unserialize*` counterparts) live in `utils.cpp`, which is not part of
the shown sources. The spec fixes their contract: every field is written in a
fixed order and self-describes its own length — strings are length-prefixed,
integers are fixed-width or variable-length-compressed, the expansion-flag
region is 8 bytes that a reader must fully consume — and every read that runs
out of bytes fails. A reader is a function from the remaining input to
`none` (failed read) or the decoded value and the unconsumed suffix. -/

/-- Little-endian value of a byte list. -/
def natFromBytesLE : List Nat → Nat
  | [] => 0
  | b :: rest => b % 256 + 256 * natFromBytesLE rest

/-- Fixed-width little-endian bytes of a value. -/
def bytesLE : Nat → Nat → List Nat
  | 0, _ => []
  | w + 1, v => v % 256 :: bytesLE w (v / 256)

/-- Minimal little-endian bytes of a value, producing at most `w` bytes. -/
def bytesOfNatAux : Nat → Nat → List Nat
  | 0, _ => []
  | w + 1, v => if v = 0 then [] else v % 256 :: bytesOfNatAux w (v / 256)

/-- Minimal little-endian bytes of a 64-bit value (`0` takes zero bytes): the
payload of the variable-length-compressed integer encoding. -/
def bytesOfNat (v : Nat) : List Nat := bytesOfNatAux 8 v

theorem bytesLE_length (w v : Nat) : (bytesLE w v).length = w := by
  induction w generalizing v with
  | zero => rfl
  | succ n ih => simp [bytesLE, ih]

theorem mod_mul_helper (v M : Nat) (hM : 0 < M) :
    v % 256 + 256 * (v / 256 % M) = v % (256 * M) := by
  have hv : v = (v % 256 + 256 * (v / 256 % M)) + (256 * M) * (v / 256 / M) := by
    have h2 := Nat.div_add_mod (v / 256) M
    have h1 := Nat.div_add_mod v 256
    calc v = 256 * (v / 256) + v % 256 := by omega
    _ = 256 * (M * (v / 256 / M) + v / 256 % M) + v % 256 := by rw [h2]
    _ = _ := by ring
  have hlt : v % 256 + 256 * (v / 256 % M) < 256 * M := by
    have ha : v % 256 < 256 := Nat.mod_lt _ (by omega)
    have hb : v / 256 % M < M := Nat.mod_lt _ hM
    omega
  conv_rhs => rw [hv]
  rw [Nat.add_mul_mod_self_left, Nat.mod_eq_of_lt hlt]

theorem natFromBytesLE_bytesLE (w v : Nat) :
    natFromBytesLE (bytesLE w v) = v % 2 ^ (8 * w) := by
  induction w generalizing v with
  | zero => simp [bytesLE, natFromBytesLE, Nat.mod_one]
  | succ n ih =>
    have h256 : (0:Nat) < 2 ^ (8 * n) := by positivity
    rw [bytesLE, natFromBytesLE, Nat.mod_mod_of_dvd v (dvd_refl 256), ih (v / 256),
      mod_mul_helper v _ h256]
    congr 1
    rw [show 8 * (n + 1) = 8 + 8 * n by ring, Nat.pow_add]

theorem natFromBytesLE_bytesOfNatAux (w : Nat) : ∀ v : Nat, v < 2 ^ (8 * w) →
    natFromBytesLE (bytesOfNatAux w v) = v := by
  induction w with
  | zero =>
    intro v hv
    simp only [Nat.mul_zero, Nat.pow_zero, Nat.lt_one_iff] at hv
    simp [hv, bytesOfNatAux, natFromBytesLE]
  | succ n ih =>
    intro v hv
    rw [bytesOfNatAux]
    by_cases h : v = 0
    · simp [h, natFromBytesLE]
    · have hdiv : v / 256 < 2 ^ (8 * n) := by
        rw [Nat.div_lt_iff_lt_mul (by omega : (0:Nat) < 256)]
        calc v < 2 ^ (8 * (n + 1)) := hv
        _ = 2 ^ (8 * n) * 256 := by
          rw [show 8 * (n + 1) = 8 * n + 8 by ring, Nat.pow_add]
      rw [if_neg h, natFromBytesLE, ih (v / 256) hdiv]
      omega

theorem natFromBytesLE_bytesOfNat (v : Nat) (hv : v < 2 ^ 64) :
    natFromBytesLE (bytesOfNat v) = v :=
  natFromBytesLE_bytesOfNatAux 8 v (by rw [show 8 * 8 = 64 by norm_num]; exact hv)

theorem bytesOfNatAux_length_le (w : Nat) : ∀ v : Nat,
    (bytesOfNatAux w v).length ≤ w := by
  induction w with
  | zero => intro v; simp [bytesOfNatAux]
  | succ n ih =>
    intro v
    rw [bytesOfNatAux]
    by_cases h : v = 0
    · simp [h]
    · rw [if_neg h, List.length_cons]
      exact Nat.succ_le_succ (ih (v / 256))

theorem bytesOfNat_length_le (v : Nat) : (bytesOfNat v).length ≤ 8 :=
  bytesOfNatAux_length_le 8 v

/-- Consume exactly `n` bytes of input, failing on a short read. -/
def readBytes (n : Nat) (d : List Nat) : Option (List Nat × List Nat) :=
  if n ≤ d.length then some (d.take n, d.drop n) else none

theorem readBytes_exact {b : List Nat} {n : Nat} (h : b.length = n)
    (rest : List Nat) : readBytes n (b ++ rest) = some (b, rest) := by
  rw [readBytes, if_pos (by simp [← h]), List.take_left' h, List.drop_left' h]

theorem readBytes_stab {n : Nat} {d b r : List Nat}
    (h : readBytes n d = some (b, r)) (e : List Nat) :
    readBytes n (d ++ e) = some (b, r ++ e) := by
  rw [readBytes] at h
  by_cases hn : n ≤ d.length
  · rw [if_pos hn] at h
    injection h with h
    injection h with h1 h2
    rw [readBytes, if_pos (by simp; omega), List.take_append_of_le_length hn,
      List.drop_append_of_le_length hn, h1, h2]
  · rw [if_neg hn] at h
    exact Option.noConfusion h

/-- Modelled from the spec: `CacheableWriter::serializehandle` — a 64-bit
handle written as 8 fixed-width little-endian bytes. -/
def writeHandle (h : Nat) : List Nat := bytesLE 8 h

/-- Modelled from the spec: `CacheableWriter::serializenodehandle` — the
"node handle" width/format, a 6-byte little-endian value. -/
def writeNodeHandle (h : Nat) : List Nat := bytesLE 6 h

/-- Modelled from the spec: `CacheableWriter::serializeu32` — 4 fixed-width
little-endian bytes. -/
def writeU32 (v : Nat) : List Nat := bytesLE 4 v

/-- Modelled from the spec: `CacheableWriter::serializei64` — 8 fixed-width
little-endian bytes of the two's-complement representation. -/
def writeI64 (o : Int) : List Nat := bytesLE 8 (o.emod (2 ^ 64)).toNat

/-- Modelled from the spec: `CacheableWriter::serializecompressed64` — the
variable-length-compressed integer: one count byte holding the number of
significant bytes, then that many little-endian payload bytes. -/
def writeCompressed64 (v : Nat) : List Nat :=
  (bytesOfNat v).length :: bytesOfNat v

/-- Modelled from the spec: `CacheableWriter::serializestring` — a
length-prefixed string: a 16-bit little-endian length then the raw bytes. -/
def writeString (s : Str) : List Nat := bytesLE 2 s.length ++ s

/-- Modelled from the spec: `CacheableWriter::serializeexpansionflags` — the
reserved 8-byte expansion-flag region, currently all zero. -/
def writeExpansionFlags : List Nat := List.replicate 8 0

/-- Modelled from the spec: `CacheableReader::unserializehandle`. -/
def readHandle (d : List Nat) : Option (Nat × List Nat) :=
  match readBytes 8 d with
  | none => none
  | some (b, rest) => some (natFromBytesLE b, rest)

/-- Modelled from the spec: `CacheableReader::unserializenodehandle`. -/
def readNodeHandle (d : List Nat) : Option (Nat × List Nat) :=
  match readBytes 6 d with
  | none => none
  | some (b, rest) => some (natFromBytesLE b, rest)

/-- Modelled from the spec: `CacheableReader::unserializeu32`. -/
def readU32 (d : List Nat) : Option (Nat × List Nat) :=
  match readBytes 4 d with
  | none => none
  | some (b, rest) => some (natFromBytesLE b, rest)

/-- Modelled from the spec: `CacheableReader::unserializei64` — 8 bytes read
back as a signed two's-complement value. -/
def readI64 (d : List Nat) : Option (Int × List Nat) :=
  match readBytes 8 d with
  | none => none
  | some (b, rest) =>
    some (if natFromBytesLE b < 2 ^ 63 then (natFromBytesLE b : Int)
          else (natFromBytesLE b : Int) - 2 ^ 64, rest)

/-- Modelled from the spec: `CacheableReader::unserializecompressed64` — read
the count byte, reject a count that exceeds the 8 bytes of a 64-bit value
(malformed count), then read that many payload bytes. -/
def readCompressed64 (d : List Nat) : Option (Nat × List Nat) :=
  match d with
  | [] => none
  | c :: rest =>
    if c ≤ 8 then
      match readBytes c rest with
      | none => none
      | some (b, rest') => some (natFromBytesLE b, rest')
    else none

/-- Modelled from the spec: `CacheableReader::unserializestring`. -/
def readString (d : List Nat) : Option (Str × List Nat) :=
  match readBytes 2 d with
  | none => none
  | some (lb, rest) => readBytes (natFromBytesLE lb) rest

/-- Modelled from the spec: `CacheableReader::unserializeexpansionflags` —
the 8-byte flag region must be fully consumed; flags this reader does not
recognize are ignored, so only a short read fails. -/
def readExpansionFlags (d : List Nat) : Option (List Nat × List Nat) :=
  readBytes 8 d

theorem readHandle_write (h : Nat) (hh : h < 2 ^ 64) (rest : List Nat) :
    readHandle (writeHandle h ++ rest) = some (h, rest) := by
  rw [readHandle, writeHandle, readBytes_exact (bytesLE_length 8 h) rest]
  simp only [natFromBytesLE_bytesLE]
  rw [show 8 * 8 = 64 by norm_num, Nat.mod_eq_of_lt hh]

theorem readNodeHandle_write (h : Nat) (hh : h < 2 ^ 48) (rest : List Nat) :
    readNodeHandle (writeNodeHandle h ++ rest) = some (h, rest) := by
  rw [readNodeHandle, writeNodeHandle, readBytes_exact (bytesLE_length 6 h) rest]
  simp only [natFromBytesLE_bytesLE]
  rw [show 8 * 6 = 48 by norm_num, Nat.mod_eq_of_lt hh]

theorem readU32_write (v : Nat) (hv : v < 2 ^ 32) (rest : List Nat) :
    readU32 (writeU32 v ++ rest) = some (v, rest) := by
  rw [readU32, writeU32, readBytes_exact (bytesLE_length 4 v) rest]
  simp only [natFromBytesLE_bytesLE]
  rw [show 8 * 4 = 32 by norm_num, Nat.mod_eq_of_lt hv]

theorem readI64_write (o : Int) (hlo : -(2 ^ 63) ≤ o) (hhi : o < 2 ^ 63)
    (rest : List Nat) : readI64 (writeI64 o ++ rest) = some (o, rest) := by
  rw [readI64, writeI64, readBytes_exact (bytesLE_length 8 _) rest]
  simp only [natFromBytesLE_bytesLE]
  rw [show 8 * 8 = 64 by norm_num]
  have hm0 : (0:Int) ≤ o.emod (2 ^ 64) := Int.emod_nonneg o (by norm_num)
  have hm1 : o.emod (2 ^ 64) < 2 ^ 64 := Int.emod_lt_of_pos o (by norm_num)
  have hlt : (o.emod (2 ^ 64)).toNat < 2 ^ 64 := by omega
  rw [Nat.mod_eq_of_lt hlt]
  by_cases ho : 0 ≤ o
  · have he : o.emod (2 ^ 64) = o := Int.emod_eq_of_lt ho (by omega)
    have htn : ((o.emod (2 ^ 64)).toNat : Int) = o := by omega
    rw [if_pos (by omega), htn]
  · have he : o.emod (2 ^ 64) = o + 2 ^ 64 := by
      have hd : (o + 2 ^ 64).emod (2 ^ 64) = o.emod (2 ^ 64) := by
        have h1 := Int.add_mul_emod_self_left o (2 ^ 64) 1
        rwa [Int.mul_one] at h1
      rw [← hd]
      exact Int.emod_eq_of_lt (by omega) (by omega)
    have htn : ((o.emod (2 ^ 64)).toNat : Int) = o + 2 ^ 64 := by omega
    have hcond : ¬ (o.emod (2 ^ 64)).toNat < 2 ^ 63 := by omega
    rw [if_neg hcond, htn]
    norm_num

theorem readCompressed64_write (v : Nat) (hv : v < 2 ^ 64) (rest : List Nat) :
    readCompressed64 (writeCompressed64 v ++ rest) = some (v, rest) := by
  rw [writeCompressed64, List.cons_append, readCompressed64]
  rw [if_pos (bytesOfNat_length_le v), readBytes_exact rfl rest]
  simp only [natFromBytesLE_bytesOfNat v hv]

theorem readString_write (s : Str) (hs : s.length < 2 ^ 16) (rest : List Nat) :
    readString (writeString s ++ rest) = some (s, rest) := by
  rw [readString, writeString, List.append_assoc,
    readBytes_exact (bytesLE_length 2 s.length) (s ++ rest)]
  simp only [natFromBytesLE_bytesLE]
  rw [show 8 * 2 = 16 by norm_num, Nat.mod_eq_of_lt hs, readBytes_exact rfl rest]

theorem readExpansionFlags_write (rest : List Nat) :
    readExpansionFlags (writeExpansionFlags ++ rest) =
      some (List.replicate 8 0, rest) := by
  rw [readExpansionFlags, writeExpansionFlags,
    readBytes_exact (List.length_replicate 8 0) rest]

theorem readExpansionFlags_write_nil :
    readExpansionFlags writeExpansionFlags = some (List.replicate 8 0, []) := by
  have h := readExpansionFlags_write []
  rwa [List.append_nil] at h

theorem readHandle_stab {d : List Nat} {v : Nat} {r : List Nat}
    (h : readHandle d = some (v, r)) (e : List Nat) :
    readHandle (d ++ e) = some (v, r ++ e) := by
  rw [readHandle] at h ⊢
  cases hb : readBytes 8 d with
  | none => rw [hb] at h; exact Option.noConfusion h
  | some br =>
    obtain ⟨b, rest⟩ := br
    rw [hb] at h
    injection h with h
    injection h with h1 h2
    rw [readBytes_stab hb e, ← h1, ← h2]

theorem readNodeHandle_stab {d : List Nat} {v : Nat} {r : List Nat}
    (h : readNodeHandle d = some (v, r)) (e : List Nat) :
    readNodeHandle (d ++ e) = some (v, r ++ e) := by
  rw [readNodeHandle] at h ⊢
  cases hb : readBytes 6 d with
  | none => rw [hb] at h; exact Option.noConfusion h
  | some br =>
    obtain ⟨b, rest⟩ := br
    rw [hb] at h
    injection h with h
    injection h with h1 h2
    rw [readBytes_stab hb e, ← h1, ← h2]

theorem readU32_stab {d : List Nat} {v : Nat} {r : List Nat}
    (h : readU32 d = some (v, r)) (e : List Nat) :
    readU32 (d ++ e) = some (v, r ++ e) := by
  rw [readU32] at h ⊢
  cases hb : readBytes 4 d with
  | none => rw [hb] at h; exact Option.noConfusion h
  | some br =>
    obtain ⟨b, rest⟩ := br
    rw [hb] at h
    injection h with h
    injection h with h1 h2
    rw [readBytes_stab hb e, ← h1, ← h2]

theorem readI64_stab {d : List Nat} {v : Int} {r : List Nat}
    (h : readI64 d = some (v, r)) (e : List Nat) :
    readI64 (d ++ e) = some (v, r ++ e) := by
  rw [readI64] at h ⊢
  cases hb : readBytes 8 d with
  | none => rw [hb] at h; exact Option.noConfusion h
  | some br =>
    obtain ⟨b, rest⟩ := br
    rw [hb] at h
    injection h with h
    injection h with h1 h2
    rw [readBytes_stab hb e, ← h1, ← h2]

theorem readCompressed64_stab {d : List Nat} {v : Nat} {r : List Nat}
    (h : readCompressed64 d = some (v, r)) (e : List Nat) :
    readCompressed64 (d ++ e) = some (v, r ++ e) := by
  cases d with
  | nil => exact Option.noConfusion h
  | cons c rest =>
    rw [readCompressed64] at h
    by_cases hc : c ≤ 8
    · rw [if_pos hc] at h
      cases hb : readBytes c rest with
      | none => rw [hb] at h; exact Option.noConfusion h
      | some br =>
        obtain ⟨b, rest'⟩ := br
        rw [hb] at h
        injection h with h
        injection h with h1 h2
        rw [List.cons_append, readCompressed64, if_pos hc, readBytes_stab hb e,
          ← h1, ← h2]
    · rw [if_neg hc] at h
      exact Option.noConfusion h

theorem readString_stab {d : List Nat} {s : Str} {r : List Nat}
    (h : readString d = some (s, r)) (e : List Nat) :
    readString (d ++ e) = some (s, r ++ e) := by
  rw [readString] at h ⊢
  cases hb : readBytes 2 d with
  | none => rw [hb] at h; exact Option.noConfusion h
  | some br =>
    obtain ⟨lb, rest⟩ := br
    rw [hb] at h
    rw [readBytes_stab hb e]
    exact readBytes_stab h e

theorem readExpansionFlags_stab {d : List Nat} {b : List Nat} {r : List Nat}
    (h : readExpansionFlags d = some (b, r)) (e : List Nat) :
    readExpansionFlags (d ++ e) = some (b, r ++ e) :=
  readBytes_stab h e

/-- A successful `readBytes` consumes exactly `n` bytes. -/
theorem readBytes_length {n : Nat} {d b r : List Nat}
    (h : readBytes n d = some (b, r)) :
    b.length = n ∧ d.length = n + r.length := by
  rw [readBytes] at h
  by_cases hn : n ≤ d.length
  · rw [if_pos hn] at h
    injection h with h
    injection h with h1 h2
    subst h1
    subst h2
    constructor
    · rw [List.length_take]
      omega
    · rw [List.length_drop]
      omega
  · rw [if_neg hn] at h
    exact Option.noConfusion h

/-- A fixed 8-byte block at the head of the input reads as a handle. -/
theorem readHandle_bytes {b : List Nat} (hb : b.length = 8) (rest : List Nat) :
    readHandle (b ++ rest) = some (natFromBytesLE b, rest) := by
  rw [readHandle, readBytes_exact hb rest]

/-- A fixed 6-byte block at the head of the input reads as a node handle. -/
theorem readNodeHandle_bytes {b : List Nat} (hb : b.length = 6)
    (rest : List Nat) :
    readNodeHandle (b ++ rest) = some (natFromBytesLE b, rest) := by
  rw [readNodeHandle, readBytes_exact hb rest]

/-- A fixed 4-byte block at the head of the input reads as a u32. -/
theorem readU32_bytes {b : List Nat} (hb : b.length = 4) (rest : List Nat) :
    readU32 (b ++ rest) = some (natFromBytesLE b, rest) := by
  rw [readU32, readBytes_exact hb rest]

/-- A fixed 8-byte block at the head of the input reads as an i64. -/
theorem readI64_bytes {b : List Nat} (hb : b.length = 8) (rest : List Nat) :
    readI64 (b ++ rest) =
      some (if natFromBytesLE b < 2 ^ 63 then (natFromBytesLE b : Int)
            else (natFromBytesLE b : Int) - 2 ^ 64, rest) := by
  rw [readI64, readBytes_exact hb rest]

/-- Any count byte within range followed by that many payload bytes reads as
a compressed integer — the payload need not be minimal. -/
theorem readCompressed64_bytes {c : Nat} {p : List Nat} (hc : c ≤ 8)
    (hp : p.length = c) (rest : List Nat) :
    readCompressed64 ((c :: p) ++ rest) = some (natFromBytesLE p, rest) := by
  rw [List.cons_append, readCompressed64, if_pos hc, readBytes_exact hp rest]

/-- A malformed compressed-integer count byte — one claiming more than the 8
bytes a 64-bit value can occupy — fails the read no matter how many bytes
follow it. -/
theorem readCompressed64_badcount {c : Nat} (hc : ¬ c ≤ 8)
    (tail : List Nat) : readCompressed64 (c :: tail) = none := by
  rw [readCompressed64, if_neg hc]

/-- Any 2-byte length prefix followed by that many bytes reads as a string. -/
theorem readString_bytes {lb s : List Nat} (hlb : lb.length = 2)
    (hs : s.length = natFromBytesLE lb) (rest : List Nat) :
    readString ((lb ++ s) ++ rest) = some (s, rest) := by
  rw [List.append_assoc, readString, readBytes_exact hlb (s ++ rest)]
  exact readBytes_exact hs rest

/-- A successful string read consumes its 2-byte length prefix plus the
string bytes. -/
theorem readString_length {d : List Nat} {s : Str} {r : List Nat}
    (h : readString d = some (s, r)) : d.length = 2 + s.length + r.length := by
  rw [readString] at h
  cases hb : readBytes 2 d with
  | none => rw [hb] at h; exact Option.noConfusion h
  | some x =>
    obtain ⟨lb, dd⟩ := x
    simp only [hb] at h
    have h1 := readBytes_length hb
    have h2 := readBytes_length h
    omega

/-! ## Shared attribute management: `CommonSE` -/

/-- Modelled from the spec: the well-known display-name attribute tag
(`CommonSE::nameTag`, declared in the header). -/
def nameTag : Str := [110]

/-- Modelled from the spec: the well-known cover attribute tag
(`Set::coverTag`, declared in the header). -/
def coverTag : Str := [99]

/-- Value resolved for `tag` by an optional attribute map: the empty string
when the map is absent or the tag missing — the shared lookup convention of
`CommonSE::getAttr` and `CommonSE::hasAttrChanged`. -/
def getAttrOf (attrs : Option Smap) (tag : Str) : Str :=
  match attrs with
  | none => []
  | some m => (m.get tag).getD []

/-- `CommonSE::hasAttrChanged`: the value this entity resolves for `tag`
differs from the value found in `otherAttrs` (empty string when `otherAttrs`
is absent or misses the tag). -/
def hasAttrChangedOf (attrs otherAttrs : Option Smap) (tag : Str) : Bool :=
  decide (getAttrOf attrs tag ≠ getAttrOf otherAttrs tag)

/-- The shared state of `CommonSE` relevant to the attribute/encryption
lifecycle: `mKey`, `mAttrs` (null pointer = `none`), `mEncryptedAttrs`. -/
structure CommonSE where
  key : Str
  attrs : Option Smap
  encryptedAttrs : Option Str
deriving DecidableEq, Repr

/-- `CommonSE::setAttr`: allocate the map if absent, then `(*mAttrs)[tag] = value`. -/
def CommonSE.setAttr (e : CommonSE) (tag value : Str) : CommonSE :=
  { e with attrs := some ((e.attrs.getD []).insert tag value) }

/-- `CommonSE::getAttr`. -/
def CommonSE.getAttr (e : CommonSE) (tag : Str) : Str :=
  getAttrOf e.attrs tag

/-- `CommonSE::rebaseCommonAttrsOn`: no-op on a null base; otherwise start
from a copy of the base, erase keys the local map binds to an empty value,
override keys it binds to a non-empty value; release the map back to absent
when the result is empty. -/
def CommonSE.rebaseCommonAttrsOn (e : CommonSE) (baseAttrs : Option Smap) :
    CommonSE :=
  match baseAttrs with
  | none => e
  | some base =>
    let m := e.attrs.getD []
    let rebased := if m.isEmpty then base else m.foldl Smap.rebaseStep base
    if rebased.isEmpty then { e with attrs := none }
    else { e with attrs := some rebased }

/-- `CommonSE::decryptAttributes`: succeed untouched when no blob was ever
received; install an empty map and drop the blob when the blob is present and
empty; otherwise call the injected decrypt function and, on success, swap in
the produced map and drop the blob — on failure change nothing and report
failure. The injected `std::function<bool(const string&, const string&,
string_map&)>` is modelled as `f : blob → key → (success, produced attrs)`. -/
def CommonSE.decryptAttributes (e : CommonSE) (f : Str → Str → Bool × Smap) :
    Bool × CommonSE :=
  match e.encryptedAttrs with
  | none => (true, e)
  | some blob =>
    if blob.isEmpty then
      (true, { e with attrs := some [], encryptedAttrs := none })
    else
      let r := f blob e.key
      if r.1 then (true, { e with attrs := some r.2, encryptedAttrs := none })
      else (false, e)

/-! ## Change bits -/

/-- Modelled from the spec: one change bit per tracked semantic field; the
bit positions themselves are opaque enum constants from the header. -/
def CH_NAME : Nat := 0

/-- Modelled from the spec: change bit for the Collection cover field. -/
def CH_COVER : Nat := 1

/-- Modelled from the spec: change bit for the Member name field. -/
def CH_EL_NAME : Nat := 0

/-- Modelled from the spec: change bit for the Member order field. -/
def CH_EL_ORDER : Nat := 1

/-- Modelled from the spec: `setChanged` ORs the named bit into the change
bitmask. -/
def setChangedBits (c : Nat) (bit : Nat) : Nat := c ||| (1 <<< bit)

/-! ## `Set` (Collection) -/

/-- `mega::Set`: identity (`mId`, `mUser`), `mTs`, `mKey`, plus the
`CommonSE` attribute state (`mAttrs`, `mEncryptedAttrs`) and the change
bitmask. -/
structure Set where
  id : Nat
  user : Nat
  ts : Nat
  key : Str
  attrs : Option Smap
  encryptedAttrs : Option Str
  changes : Nat
deriving DecidableEq, Repr

/-- Modelled from the spec: `UNDEF`, the "undefined handle" sentinel — the
all-ones 64-bit handle. -/
def UNDEF : Nat := 2 ^ 64 - 1

/-- `SetElement::HANDLESIZE`: the fixed binary width of a handle payload. -/
def HANDLESIZE : Nat := 8

/-- Modelled from the spec: value of one base64 alphabet character
(URL-safe alphabet), `none` for a character outside the alphabet. -/
def b64val (c : Nat) : Option Nat :=
  if 65 ≤ c ∧ c ≤ 90 then some (c - 65)
  else if 97 ≤ c ∧ c ≤ 122 then some (c - 97 + 26)
  else if 48 ≤ c ∧ c ≤ 57 then some (c - 48 + 52)
  else if c = 45 then some 62
  else if c = 95 then some 63
  else none

/-- Modelled from the spec: `Base64::atob` byte production — decode base64
characters in groups of four into three bytes, a trailing group of two or
three characters into one or two bytes, stopping at the first character
outside the alphabet. -/
def b64decode : List Nat → List Nat
  | c1 :: c2 :: c3 :: c4 :: rest =>
    match b64val c1, b64val c2, b64val c3, b64val c4 with
    | some v1, some v2, some v3, some v4 =>
      (v1 * 4 + v2 / 16) :: ((v2 % 16) * 16 + v3 / 4) ::
        ((v3 % 4) * 64 + v4) :: b64decode rest
    | _, _, _, _ => []
  | [c1, c2] =>
    match b64val c1, b64val c2 with
    | some v1, some v2 => [v1 * 4 + v2 / 16]
    | _, _ => []
  | [c1, c2, c3] =>
    match b64val c1, b64val c2, b64val c3 with
    | some v1, some v2, some v3 => [v1 * 4 + v2 / 16, (v2 % 16) * 16 + v3 / 4]
    | _, _, _ => []
  | _ => []

/-- `Set::cover`: read the cover attribute; an absent or empty value yields
`UNDEF`; otherwise `Base64::atob` decodes into an 8-byte buffer initialized
to zero (`handle h = 0`), writing at most `HANDLESIZE` bytes, and the buffer
is returned as the handle — the return value of `atob` is ignored. -/
def Set.cover (s : Set) : Nat :=
  let hs := getAttrOf s.attrs coverTag
  if hs ≠ [] then
    let bs := (b64decode hs).take HANDLESIZE
    natFromBytesLE (bs ++ List.replicate (HANDLESIZE - bs.length) 0)
  else UNDEF

/-- The attribute-pair region of a serialized entity:
`for (aa : *mAttrs) { serializestring(aa.first); serializestring(aa.second); }`
in map iteration order. -/
def writePairs : List (Str × Str) → List Nat
  | [] => []
  | p :: ps => writeString p.1 ++ writeString p.2 ++ writePairs ps

/-- `Set::serialize`: id, owner, timestamp, key, attribute count, attribute
pairs, expansion flags. -/
def Set.serialize (s : Set) : List Nat :=
  writeHandle s.id ++ writeHandle s.user ++ writeCompressed64 s.ts ++
  writeString s.key ++ writeU32 (s.attrs.getD []).length ++
  writePairs (s.attrs.getD []) ++ writeExpansionFlags

/-- The attribute-reading loop of `unserialize`: read `n` (tag, value) string
pairs, aborting the whole decode if any string is truncated. -/
def readPairs : Nat → List Nat → Option (List (Str × Str) × List Nat)
  | 0, d => some ([], d)
  | n + 1, d =>
    match readString d with
    | none => none
    | some (ak, d) =>
      match readString d with
      | none => none
      | some (av, d) =>
        match readPairs n d with
        | none => none
        | some (ps, d) => some ((ak, av) :: ps, d)

/-- `Set::unserialize`, with the unconsumed suffix returned: read id, owner,
timestamp, key, attribute count, that many pairs, expansion flags; any failed
read aborts the decode with `none` (the source returns `nullptr`). On
success the `Set(id, key, u, attrs)` constructor (modelled from the spec:
fully populates identity, installs the decoded map, no encrypted blob, no
change bits) is applied, then `setTs`. -/
def Set.unserializeR (d : List Nat) : Option (Set × List Nat) :=
  match readHandle d with
  | none => none
  | some (id, d) =>
    match readHandle d with
    | none => none
    | some (u, d) =>
      match readCompressed64 d with
      | none => none
      | some (ts, d) =>
        match readString d with
        | none => none
        | some (k, d) =>
          match readU32 d with
          | none => none
          | some (attrCount, d) =>
            match readPairs attrCount d with
            | none => none
            | some (ps, d) =>
              match readExpansionFlags d with
              | none => none
              | some (_, d) =>
                some (⟨id, u, ts, k, some (Smap.ofPairs ps), none, 0⟩, d)

/-- `Set::unserialize` as the caller sees it: the decoded entity or nothing. -/
def Set.unserialize (d : List Nat) : Option Set :=
  (Set.unserializeR d).map Prod.fst

/-- `Set::updateWith`: adopt the incoming timestamp, set the name/cover
change bits by comparing current local attributes against the incoming
attribute map, then swap the attribute maps wholesale; report whether any
change bit is set. -/
def Set.updateWith (s incoming : Set) : Set × Bool :=
  let s1 := { s with ts := incoming.ts }
  let s2 := if hasAttrChangedOf s1.attrs incoming.attrs nameTag then
      { s1 with changes := setChangedBits s1.changes CH_NAME } else s1
  let s3 := if hasAttrChangedOf s2.attrs incoming.attrs coverTag then
      { s2 with changes := setChangedBits s2.changes CH_COVER } else s2
  let s4 := { s3 with attrs := incoming.attrs }
  (s4, decide (s4.changes ≠ 0))

/-! ## `SetElement` (Member) -/

/-- `mega::SetElement`: identity (`mSetId`, `mId`, `mNodeHandle`), the
optional `mOrder`, `mTs`, `mKey`, the `CommonSE` attribute state, the
`mAttrsClearedByLastUpdate` flag and the change bitmask. -/
structure SetElement where
  setId : Nat
  id : Nat
  nodeHandle : Nat
  order : Option Int
  ts : Nat
  key : Str
  attrs : Option Smap
  encryptedAttrs : Option Str
  attrsClearedByLastUpdate : Bool
  changes : Nat
deriving DecidableEq, Repr

/-- `SetElement::setOrder`: a first assignment always installs the order and
marks the order-change bit; afterwards only a differing value updates and
marks; an equal value is a no-op. -/
def SetElement.setOrder (el : SetElement) (order : Int) : SetElement :=
  match el.order with
  | none =>
    { el with order := some order,
              changes := setChangedBits el.changes CH_EL_ORDER }
  | some o =>
    if o ≠ order then
      { el with order := some order,
                changes := setChangedBits el.changes CH_EL_ORDER }
    else el

/-- `SetElement::updateWith`: adopt an incoming order through `setOrder` when
the incoming element carries one, adopt the incoming timestamp, and replace
the attribute map only when the incoming element carries attributes or its
`attrsClearedByLastUpdate` flag is set (computing the name change bit against
the current local attributes first); report whether any change bit is set.
(`hasAttrs` / `hasAttrsClearedByLastUpdate` are header accessors, modelled
from the spec as "the incoming element actually carries attributes" and the
transient cleared flag.) -/
def SetElement.updateWith (el incoming : SetElement) : SetElement × Bool :=
  let e1 := if incoming.order.isSome then el.setOrder (incoming.order.getD 0)
    else el
  let e2 := { e1 with ts := incoming.ts }
  let e3 :=
    if incoming.attrs.isSome || incoming.attrsClearedByLastUpdate then
      let e := if hasAttrChangedOf e2.attrs incoming.attrs nameTag then
          { e2 with changes := setChangedBits e2.changes CH_EL_NAME } else e2
      { e with attrs := incoming.attrs }
    else e2
  (e3, decide (e3.changes ≠ 0))

/-- `SetElement::serialize`: collection id, element id, node handle, order
(always written, a logically unset order is written as 0), timestamp, key,
attribute count, attribute pairs, expansion flags. -/
def SetElement.serialize (el : SetElement) : List Nat :=
  writeHandle el.setId ++ writeHandle el.id ++ writeNodeHandle el.nodeHandle ++
  writeI64 (el.order.getD 0) ++ writeCompressed64 el.ts ++ writeString el.key ++
  writeU32 (el.attrs.getD []).length ++ writePairs (el.attrs.getD []) ++
  writeExpansionFlags

/-- `SetElement::unserialize`, with the unconsumed suffix returned: read
collection id, element id, node handle, order, timestamp, key, attribute
count, pairs, expansion flags; any failed read aborts with `none`. On
success the `SetElement(sid, h, eid, key, attrs)` constructor (modelled from
the spec: no order assigned yet, no change bits, flags clear) is applied,
then `setOrder(o)` and `setTs(ts)`. -/
def SetElement.unserializeR (d : List Nat) : Option (SetElement × List Nat) :=
  match readHandle d with
  | none => none
  | some (sid, d) =>
    match readHandle d with
    | none => none
    | some (eid, d) =>
      match readNodeHandle d with
      | none => none
      | some (h, d) =>
        match readI64 d with
        | none => none
        | some (o, d) =>
          match readCompressed64 d with
          | none => none
          | some (ts, d) =>
            match readString d with
            | none => none
            | some (k, d) =>
              match readU32 d with
              | none => none
              | some (attrCount, d) =>
                match readPairs attrCount d with
                | none => none
                | some (ps, d) =>
                  match readExpansionFlags d with
                  | none => none
                  | some (_, d) =>
                    some ({ SetElement.setOrder
                        ⟨sid, eid, h, none, 0, k, some (Smap.ofPairs ps),
                          none, false, 0⟩ o with ts := ts }, d)

/-- `SetElement::unserialize` as the caller sees it. -/
def SetElement.unserialize (d : List Nat) : Option SetElement :=
  (SetElement.unserializeR d).map Prod.fst

/-! ## Round-trip and decode-failure infrastructure -/

/-- A well-formed attribute map for serialization: sorted (the `std::map`
invariant), a size that fits the `u32` count field, and tag/value lengths
that fit the length-prefixed string format. -/
def SmapWf (m : Smap) : Prop :=
  m.Sorted ∧ m.length < 2 ^ 32 ∧
    ∀ p ∈ m, p.1.length < 2 ^ 16 ∧ p.2.length < 2 ^ 16

instance (m : Smap) : Decidable (SmapWf m) := by
  unfold SmapWf; infer_instance

/-- A fully-constructed in-memory Collection: all machine-width fields in
range. -/
def Set.Wf (s : Set) : Prop :=
  s.id < 2 ^ 64 ∧ s.user < 2 ^ 64 ∧ s.ts < 2 ^ 64 ∧
    s.key.length < 2 ^ 16 ∧ SmapWf (s.attrs.getD [])

instance (s : Set) : Decidable s.Wf := by
  unfold Set.Wf; infer_instance

/-- A fully-constructed in-memory Member: all machine-width fields in range
(the node handle uses the 6-byte node-handle format, the order is a signed
64-bit value). -/
def SetElement.Wf (el : SetElement) : Prop :=
  el.setId < 2 ^ 64 ∧ el.id < 2 ^ 64 ∧ el.nodeHandle < 2 ^ 48 ∧
    -(2 ^ 63) ≤ el.order.getD 0 ∧ el.order.getD 0 < 2 ^ 63 ∧
    el.ts < 2 ^ 64 ∧ el.key.length < 2 ^ 16 ∧ SmapWf (el.attrs.getD [])

instance (el : SetElement) : Decidable el.Wf := by
  unfold SetElement.Wf; infer_instance

theorem readPairs_write (m : List (Str × Str))
    (hm : ∀ p ∈ m, p.1.length < 2 ^ 16 ∧ p.2.length < 2 ^ 16)
    (rest : List Nat) :
    readPairs m.length (writePairs m ++ rest) = some (m, rest) := by
  induction m with
  | nil => rfl
  | cons p ps ih =>
    have hp := hm p (List.mem_cons_self _ _)
    rw [List.length_cons, writePairs, readPairs, List.append_assoc,
      List.append_assoc]
    simp only [readString_write p.1 hp.1, readString_write p.2 hp.2,
      ih fun q hq => hm q (List.mem_cons_of_mem _ hq)]

theorem readPairs_stab (n : Nat) : ∀ {d : List Nat} {ps : List (Str × Str)}
    {r : List Nat}, readPairs n d = some (ps, r) → ∀ e : List Nat,
    readPairs n (d ++ e) = some (ps, r ++ e) := by
  induction n with
  | zero =>
    intro d ps r h e
    rw [readPairs] at h
    injection h with h
    injection h with h1 h2
    rw [readPairs, ← h1, ← h2]
  | succ n ih =>
    intro d ps r h e
    rw [readPairs] at h
    cases h1 : readString d with
    | none => simp [h1] at h
    | some kd =>
      obtain ⟨ak, d1⟩ := kd
      simp only [h1] at h
      cases h2 : readString d1 with
      | none => simp [h2] at h
      | some vd =>
        obtain ⟨av, d2⟩ := vd
        simp only [h2] at h
        cases h3 : readPairs n d2 with
        | none => simp [h3] at h
        | some pd =>
          obtain ⟨ps', d3⟩ := pd
          simp only [h3, Option.some_inj, Prod.mk.injEq] at h
          rw [readPairs]
          simp only [readString_stab h1 e, readString_stab h2 e, ih h3 e]
          rw [← h.1, ← h.2]

/-- Each attribute pair consumes at least its two 2-byte length prefixes. -/
theorem readPairs_length (n : Nat) : ∀ {d : List Nat}
    {ps : List (Str × Str)} {r : List Nat},
    readPairs n d = some (ps, r) → 4 * n + r.length ≤ d.length := by
  induction n with
  | zero =>
    intro d ps r h
    rw [readPairs] at h
    injection h with h
    injection h with h1 h2
    subst h2
    omega
  | succ n ih =>
    intro d ps r h
    rw [readPairs] at h
    cases h1 : readString d with
    | none => simp [h1] at h
    | some kd =>
      obtain ⟨ak, d1⟩ := kd
      simp only [h1] at h
      cases h2 : readString d1 with
      | none => simp [h2] at h
      | some vd =>
        obtain ⟨av, d2⟩ := vd
        simp only [h2] at h
        cases h3 : readPairs n d2 with
        | none => simp [h3] at h
        | some pd =>
          obtain ⟨ps', d3⟩ := pd
          simp only [h3, Option.some_inj, Prod.mk.injEq] at h
          have ha := readString_length h1
          have hb := readString_length h2
          have hc := ih h3
          have hd : r.length = d3.length := by rw [← h.2]
          omega

/-- A count field claiming more attribute pairs than the remaining bytes can
possibly hold (four bytes of length prefixes per pair at minimum) aborts the
pair loop. -/
theorem readPairs_too_long {n : Nat} {d : List Nat}
    (h : d.length < 4 * n) : readPairs n d = none := by
  cases hp : readPairs n d with
  | none => rfl
  | some xr =>
    obtain ⟨ps, r⟩ := xr
    have := readPairs_length n hp
    omega

/-- Serializing then deserializing a well-formed Collection consumes the
whole byte string and rebuilds the entity: identity, timestamp and key come
back exactly, the attribute map comes back as the (possibly empty) present
map, the encrypted-blob and change-tracking state of a freshly constructed
entity. -/
theorem Set.set_roundtripR (s : Set) (hw : s.Wf) :
    Set.unserializeR (Set.serialize s) =
      some (⟨s.id, s.user, s.ts, s.key, some (s.attrs.getD []), none, 0⟩, []) := by
  obtain ⟨h1, h2, h3, h4, hs, hc, hp⟩ := hw
  rw [Set.serialize]
  simp only [List.append_assoc]
  rw [Set.unserializeR]
  simp only [readHandle_write s.id h1, readHandle_write s.user h2,
    readCompressed64_write s.ts h3, readString_write s.key h4,
    readU32_write _ hc, readPairs_write _ hp, readExpansionFlags_write_nil,
    Smap.ofPairs_sorted_self _ hs]

/-- Serializing then deserializing a well-formed Member consumes the whole
byte string; the decoded entity carries the written order (`getD 0`: a
logically unset order was written as 0) installed through `setOrder` on a
fresh element, so its order-change bit is set. -/
theorem SetElement.element_roundtripR (el : SetElement) (hw : el.Wf) :
    SetElement.unserializeR (SetElement.serialize el) =
      some ({ SetElement.setOrder
          ⟨el.setId, el.id, el.nodeHandle, none, 0, el.key,
            some (el.attrs.getD []), none, false, 0⟩ (el.order.getD 0)
          with ts := el.ts }, []) := by
  obtain ⟨h1, h2, h3, h4, h5, h6, h7, hs, hc, hp⟩ := hw
  rw [SetElement.serialize]
  simp only [List.append_assoc]
  rw [SetElement.unserializeR]
  simp only [readHandle_write el.setId h1, readHandle_write el.id h2,
    readNodeHandle_write el.nodeHandle h3, readI64_write _ h4 h5,
    readCompressed64_write el.ts h6, readString_write el.key h7,
    readU32_write _ hc, readPairs_write _ hp, readExpansionFlags_write_nil,
    Smap.ofPairs_sorted_self _ hs]

/-- A successful `Set` decode is unaffected by appending extra bytes: the
decoder reads a prefix determined by the data itself. -/
theorem Set.set_unserializeR_stab {d : List Nat} {s : Set} {r : List Nat}
    (h : Set.unserializeR d = some (s, r)) (e : List Nat) :
    Set.unserializeR (d ++ e) = some (s, r ++ e) := by
  rw [Set.unserializeR] at h
  cases h1 : readHandle d with
  | none => simp [h1] at h
  | some x1 =>
    obtain ⟨id, d1⟩ := x1
    simp only [h1] at h
    cases h2 : readHandle d1 with
    | none => simp [h2] at h
    | some x2 =>
      obtain ⟨u, d2⟩ := x2
      simp only [h2] at h
      cases h3 : readCompressed64 d2 with
      | none => simp [h3] at h
      | some x3 =>
        obtain ⟨ts, d3⟩ := x3
        simp only [h3] at h
        cases h4 : readString d3 with
        | none => simp [h4] at h
        | some x4 =>
          obtain ⟨k, d4⟩ := x4
          simp only [h4] at h
          cases h5 : readU32 d4 with
          | none => simp [h5] at h
          | some x5 =>
            obtain ⟨cnt, d5⟩ := x5
            simp only [h5] at h
            cases h6 : readPairs cnt d5 with
            | none => simp [h6] at h
            | some x6 =>
              obtain ⟨ps, d6⟩ := x6
              simp only [h6] at h
              cases h7 : readExpansionFlags d6 with
              | none => simp [h7] at h
              | some x7 =>
                obtain ⟨fl, d7⟩ := x7
                simp only [h7, Option.some_inj, Prod.mk.injEq] at h
                rw [Set.unserializeR]
                simp only [readHandle_stab h1 e, readHandle_stab h2 e,
                  readCompressed64_stab h3 e, readString_stab h4 e,
                  readU32_stab h5 e, readPairs_stab cnt h6 e,
                  readExpansionFlags_stab h7 e]
                rw [← h.1, ← h.2]

/-- A successful `SetElement` decode is unaffected by appending extra
bytes. -/
theorem SetElement.element_unserializeR_stab {d : List Nat} {el : SetElement}
    {r : List Nat} (h : SetElement.unserializeR d = some (el, r))
    (e : List Nat) :
    SetElement.unserializeR (d ++ e) = some (el, r ++ e) := by
  rw [SetElement.unserializeR] at h
  cases h1 : readHandle d with
  | none => simp [h1] at h
  | some x1 =>
    obtain ⟨sid, d1⟩ := x1
    simp only [h1] at h
    cases h2 : readHandle d1 with
    | none => simp [h2] at h
    | some x2 =>
      obtain ⟨eid, d2⟩ := x2
      simp only [h2] at h
      cases h3 : readNodeHandle d2 with
      | none => simp [h3] at h
      | some x3 =>
        obtain ⟨nh, d3⟩ := x3
        simp only [h3] at h
        cases h4 : readI64 d3 with
        | none => simp [h4] at h
        | some x4 =>
          obtain ⟨o, d4⟩ := x4
          simp only [h4] at h
          cases h5 : readCompressed64 d4 with
          | none => simp [h5] at h
          | some x5 =>
            obtain ⟨ts, d5⟩ := x5
            simp only [h5] at h
            cases h6 : readString d5 with
            | none => simp [h6] at h
            | some x6 =>
              obtain ⟨k, d6⟩ := x6
              simp only [h6] at h
              cases h7 : readU32 d6 with
              | none => simp [h7] at h
              | some x7 =>
                obtain ⟨cnt, d7⟩ := x7
                simp only [h7] at h
                cases h8 : readPairs cnt d7 with
                | none => simp [h8] at h
                | some x8 =>
                  obtain ⟨ps, d8⟩ := x8
                  simp only [h8] at h
                  cases h9 : readExpansionFlags d8 with
                  | none => simp [h9] at h
                  | some x9 =>
                    obtain ⟨fl, d9⟩ := x9
                    simp only [h9, Option.some_inj, Prod.mk.injEq] at h
                    rw [SetElement.unserializeR]
                    simp only [readHandle_stab h1 e, readHandle_stab h2 e,
                      readNodeHandle_stab h3 e, readI64_stab h4 e,
                      readCompressed64_stab h5 e, readString_stab h6 e,
                      readU32_stab h7 e, readPairs_stab cnt h8 e,
                      readExpansionFlags_stab h9 e]
                    rw [← h.1, ← h.2]

/-- Decoding any strict prefix of a well-formed Collection's encoding fails:
the truncated field read aborts the whole decode. -/
theorem Set.set_prefix_decode_none (s : Set) (hw : s.Wf) (k : Nat)
    (hk : k < (Set.serialize s).length) :
    Set.unserialize ((Set.serialize s).take k) = none := by
  rw [Set.unserialize]
  cases hd : Set.unserializeR ((Set.serialize s).take k) with
  | none => rfl
  | some xr =>
    obtain ⟨x, r⟩ := xr
    have hstab := Set.set_unserializeR_stab hd ((Set.serialize s).drop k)
    rw [List.take_append_drop, Set.set_roundtripR s hw] at hstab
    injection hstab with hstab
    injection hstab with ha hb
    have he : (Set.serialize s).drop k = [] := (List.append_eq_nil.mp hb.symm).2
    rw [List.drop_eq_nil_iff] at he
    omega

/-- Decoding any strict prefix of a well-formed Member's encoding fails. -/
theorem SetElement.element_prefix_decode_none (el : SetElement) (hw : el.Wf)
    (k : Nat) (hk : k < (SetElement.serialize el).length) :
    SetElement.unserialize ((SetElement.serialize el).take k) = none := by
  rw [SetElement.unserialize]
  cases hd : SetElement.unserializeR ((SetElement.serialize el).take k) with
  | none => rfl
  | some xr =>
    obtain ⟨x, r⟩ := xr
    have hstab := SetElement.element_unserializeR_stab hd
      ((SetElement.serialize el).drop k)
    rw [List.take_append_drop, SetElement.element_roundtripR el hw] at hstab
    injection hstab with hstab
    injection hstab with ha hb
    have he : (SetElement.serialize el).drop k = [] := (List.append_eq_nil.mp hb.symm).2
    rw [List.drop_eq_nil_iff] at he
    omega

/-- Cutting any successfully decoded Collection input — canonical encoding
or not — anywhere strictly inside its consumed region makes the decode
fail. -/
theorem Set.set_decode_truncation {d : List Nat} {x : Set} {r : List Nat}
    (h : Set.unserializeR d = some (x, r)) (k : Nat)
    (hk : k < d.length - r.length) :
    Set.unserialize (d.take k) = none := by
  rw [Set.unserialize]
  cases hd : Set.unserializeR (d.take k) with
  | none => rfl
  | some yr =>
    obtain ⟨y, r'⟩ := yr
    have hstab := Set.set_unserializeR_stab hd (d.drop k)
    rw [List.take_append_drop, h] at hstab
    injection hstab with hstab
    injection hstab with h1 h2
    have hlen : r.length = r'.length + (d.length - k) := by
      rw [h2, List.length_append, List.length_drop]
    omega

/-- Cutting any successfully decoded Member input — canonical encoding or
not — anywhere strictly inside its consumed region makes the decode fail. -/
theorem SetElement.element_decode_truncation {d : List Nat} {x : SetElement}
    {r : List Nat} (h : SetElement.unserializeR d = some (x, r)) (k : Nat)
    (hk : k < d.length - r.length) :
    SetElement.unserialize (d.take k) = none := by
  rw [SetElement.unserialize]
  cases hd : SetElement.unserializeR (d.take k) with
  | none => rfl
  | some yr =>
    obtain ⟨y, r'⟩ := yr
    have hstab := SetElement.element_unserializeR_stab hd (d.drop k)
    rw [List.take_append_drop, h] at hstab
    injection hstab with hstab
    injection hstab with h1 h2
    have hlen : r.length = r'.length + (d.length - k) := by
      rw [h2, List.length_append, List.length_drop]
    omega

/-- A malformed compressed count byte in a Collection record's timestamp
field — any count above the 8 bytes of a 64-bit value — aborts the whole
decode, whatever the two leading 8-byte handle blocks hold and however many
bytes follow. -/
theorem Set.set_malformed_count (b1 b2 : List Nat) (h1 : b1.length = 8)
    (h2 : b2.length = 8) (c : Nat) (hc : 8 < c) (tail : List Nat) :
    Set.unserialize (b1 ++ (b2 ++ (c :: tail))) = none := by
  rw [Set.unserialize, Set.unserializeR]
  simp only [readHandle_bytes h1, readHandle_bytes h2,
    readCompressed64_badcount (by omega : ¬ c ≤ 8)]
  rfl

/-- A malformed compressed count byte in a Member record's timestamp field
aborts the whole decode, whatever the leading handle, node-handle and order
blocks hold and however many bytes follow. -/
theorem SetElement.element_malformed_count (b1 b2 b3 b4 : List Nat)
    (h1 : b1.length = 8) (h2 : b2.length = 8) (h3 : b3.length = 6)
    (h4 : b4.length = 8) (c : Nat) (hc : 8 < c) (tail : List Nat) :
    SetElement.unserialize (b1 ++ (b2 ++ (b3 ++ (b4 ++ (c :: tail))))) =
      none := by
  rw [SetElement.unserialize, SetElement.unserializeR]
  simp only [readHandle_bytes h1, readHandle_bytes h2, readNodeHandle_bytes h3,
    readI64_bytes h4, readCompressed64_badcount (by omega : ¬ c ≤ 8)]
  rfl

/-- A malformed attribute count in a Collection record — a u32 claiming more
pairs than the remaining bytes can hold — aborts the whole decode, for every
shape of the preceding fields. -/
theorem Set.set_malformed_attrcount (b1 b2 : List Nat) (h1 : b1.length = 8)
    (h2 : b2.length = 8) (c : Nat) (p : List Nat) (hc : c ≤ 8)
    (hp : p.length = c) (lb s : List Nat) (hlb : lb.length = 2)
    (hs : s.length = natFromBytesLE lb) (nb : List Nat) (hnb : nb.length = 4)
    (tail : List Nat) (htail : tail.length < 4 * natFromBytesLE nb) :
    Set.unserialize
      (b1 ++ (b2 ++ ((c :: p) ++ ((lb ++ s) ++ (nb ++ tail))))) = none := by
  rw [Set.unserialize, Set.unserializeR]
  simp only [readHandle_bytes h1, readHandle_bytes h2,
    readCompressed64_bytes hc hp, readString_bytes hlb hs, readU32_bytes hnb,
    readPairs_too_long htail]
  rfl

/-- A malformed attribute count in a Member record aborts the whole decode,
for every shape of the preceding fields. -/
theorem SetElement.element_malformed_attrcount (b1 b2 b3 b4 : List Nat)
    (h1 : b1.length = 8) (h2 : b2.length = 8) (h3 : b3.length = 6)
    (h4 : b4.length = 8) (c : Nat) (p : List Nat) (hc : c ≤ 8)
    (hp : p.length = c) (lb s : List Nat) (hlb : lb.length = 2)
    (hs : s.length = natFromBytesLE lb) (nb : List Nat) (hnb : nb.length = 4)
    (tail : List Nat) (htail : tail.length < 4 * natFromBytesLE nb) :
    SetElement.unserialize
      (b1 ++ (b2 ++ (b3 ++ (b4 ++
        ((c :: p) ++ ((lb ++ s) ++ (nb ++ tail))))))) = none := by
  rw [SetElement.unserialize, SetElement.unserializeR]
  simp only [readHandle_bytes h1, readHandle_bytes h2, readNodeHandle_bytes h3,
    readI64_bytes h4, readCompressed64_bytes hc hp, readString_bytes hlb hs,
    readU32_bytes hnb, readPairs_too_long htail]
  rfl

/-! ## Rebase -/

/-- The small-optimization fast path of the rebase loop (copying the base
into an empty local map) agrees with the general loop. -/
theorem rebase_fold_fastpath (m bm : Smap) :
    (if m.isEmpty then bm else m.foldl Smap.rebaseStep bm) =
      m.foldl Smap.rebaseStep bm := by
  cases m with
  | nil => rfl
  | cons a ps => rfl

/-- Rebasing is idempotent provided neither the local attribute map nor the
base binds any tag to an empty value: with no deletion markers in play, a
second rebase on the same base changes nothing. (In general this fails: an
empty-valued local entry is consumed by the first rebase, so a second rebase
resurrects the base value it deleted, and an empty-valued base entry
surviving the first rebase is deleted by the second.) -/
theorem CommonSE.rebase_idem (e : CommonSE) (base : Option Smap)
    (hl : (e.attrs.getD []).Sorted) (hlv : ∀ p ∈ e.attrs.getD [], p.2 ≠ [])
    (hb : (base.getD []).Sorted) (hbv : ∀ p ∈ base.getD [], p.2 ≠ []) :
    (e.rebaseCommonAttrsOn base).rebaseCommonAttrsOn base =
      e.rebaseCommonAttrsOn base := by
  obtain ⟨ek, ea, ee⟩ := e
  cases base with
  | none => rfl
  | some bm =>
    have hb' : bm.Sorted := hb
    have hbv' : ∀ p ∈ bm, p.2 ≠ [] := hbv
    set lm : Smap := ea.getD [] with hlm
    set R : Smap := lm.foldl Smap.rebaseStep bm with hR
    have hRs : R.Sorted := Smap.foldl_rebaseStep_sorted lm bm hb'
    have hRv : ∀ p ∈ R, p.2 ≠ [] :=
      Smap.foldl_rebaseStep_values lm bm (· ≠ []) hbv' hlv
    have hRg := fun tag => Smap.foldl_rebaseStep_get lm hl bm hb' tag
    simp only [CommonSE.rebaseCommonAttrsOn, rebase_fold_fastpath, ← hR]
    by_cases hRe : R = []
    · -- the single rebase empties the map; this forces the base to be empty
      have hbm : bm = [] := by
        cases hbm' : bm with
        | nil => rfl
        | cons q qs =>
          exfalso
          have hget := hRg q.1
          rw [← hR, hRe] at hget
          cases hlq : lm.get q.1 with
          | some w =>
            simp only [hlq] at hget
            have hw : w ≠ [] := hlv (q.1, w) (Smap.get_some_mem hlq)
            rw [if_neg hw] at hget
            exact Option.noConfusion hget
          | none =>
            simp only [hlq, hbm'] at hget
            simp [Smap.get] at hget
      subst hbm
      simp [hRe, Smap.ofPairs, List.isEmpty_iff]
    · have hfold2 : R.foldl Smap.rebaseStep bm = R := by
        refine Smap.ext_sorted _ R (Smap.foldl_rebaseStep_sorted R bm hb') hRs
          fun tag => ?_
        rw [Smap.foldl_rebaseStep_get R hRs bm hb' tag]
        cases hRt : R.get tag with
        | some v =>
          have hv : v ≠ [] := hRv (tag, v) (Smap.get_some_mem hRt)
          simp only [if_neg hv]
        | none =>
          have hget := hRg tag
          rw [← hR, hRt] at hget
          cases hlt : lm.get tag with
          | some w =>
            simp only [hlt] at hget
            have hw : w ≠ [] := hlv (tag, w) (Smap.get_some_mem hlt)
            rw [if_neg hw] at hget
            exact absurd hget.symm (Option.noConfusion ·)
          | none =>
            simp only [hlt] at hget
            exact hget.symm
      have hReb : List.isEmpty R = false := by
        cases hc : R with
        | nil => exact absurd hc hRe
        | cons a ps => rfl
      have hfix : (if List.isEmpty (ea.getD []) = true then bm else R) = R := by
        by_cases hc : ea.getD [] = []
        · have h1 : (if List.isEmpty (ea.getD []) = true then bm else R) = bm := by
            rw [hc]
            rfl
          rw [h1, hR, hlm, hc]
          rfl
        · have hf : List.isEmpty (ea.getD []) = false := by
            cases hg : ea.getD [] with
            | nil => exact absurd hg hc
            | cons a ps => rfl
          rw [hf]
          simp
      rw [hfix]
      simp [hReb, hfold2]

/-! ## Field-for-field equality with empty-vs-absent normalization -/

/-- The round-trip property's comparison of attribute maps: an empty-but-
present map compares equal to an absent map (both resolve every tag to the
empty string). -/
def attrsEquiv (a b : Option Smap) : Prop := a.getD [] = b.getD []

instance (a b : Option Smap) : Decidable (attrsEquiv a b) := by
  unfold attrsEquiv; infer_instance

/-- Field-for-field equality of Collections as the round-trip property
states it: identity, owner, timestamp and key agree exactly, the attribute
maps agree up to empty-vs-absent normalization. Transient change-tracking
and encrypted-blob state are not wire fields. -/
def Set.equiv (a b : Set) : Prop :=
  a.id = b.id ∧ a.user = b.user ∧ a.ts = b.ts ∧ a.key = b.key ∧
    attrsEquiv a.attrs b.attrs

instance (a b : Set) : Decidable (Set.equiv a b) := by
  unfold Set.equiv; infer_instance

/-- Field-for-field equality of Members: identity fields, order, timestamp
and key agree exactly, the attribute maps agree up to empty-vs-absent
normalization. -/
def SetElement.equiv (a b : SetElement) : Prop :=
  a.setId = b.setId ∧ a.id = b.id ∧ a.nodeHandle = b.nodeHandle ∧
    a.order = b.order ∧ a.ts = b.ts ∧ a.key = b.key ∧
    attrsEquiv a.attrs b.attrs

instance (a b : SetElement) : Decidable (SetElement.equiv a b) := by
  unfold SetElement.equiv; infer_instance

/-! ## Remaining helper lemmas -/

/-- Trailing zero bytes do not change the little-endian value. -/
theorem natFromBytesLE_append_zeros (l : List Nat) (k : Nat) :
    natFromBytesLE (l ++ List.replicate k 0) = natFromBytesLE l := by
  induction l with
  | nil =>
    rw [List.nil_append]
    induction k with
    | zero => rfl
    | succ n ih => simp [List.replicate_succ, natFromBytesLE, ih]
  | cons b rest ih => rw [List.cons_append, natFromBytesLE, natFromBytesLE, ih]

/-- The little-endian value of a byte list is bounded by the width it
occupies. -/
theorem natFromBytesLE_lt (l : List Nat) :
    natFromBytesLE l < 2 ^ (8 * l.length) := by
  induction l with
  | nil => simp [natFromBytesLE]
  | cons b rest ih =>
    rw [natFromBytesLE, List.length_cons,
      show 8 * (rest.length + 1) = 8 + 8 * rest.length by ring, Nat.pow_add]
    have hb : b % 256 < 256 := Nat.mod_lt _ (by omega)
    have h2 : (2:Nat) ^ 8 = 256 := by norm_num
    rw [h2]
    omega

/-- `setOrder` never touches the attribute map. -/
theorem SetElement.setOrder_attrs (el : SetElement) (o : Int) :
    (el.setOrder o).attrs = el.attrs := by
  rw [SetElement.setOrder]
  cases el.order with
  | none => rfl
  | some w => by_cases h : w ≠ o <;> simp [h]

/-! ## Claims -/

/-- C3 (counterexample): rebasing is not idempotent as claimed. A local map
binding tag "n" to the empty string (a deletion marker) rebased on a base
binding "n" to "x" yields the empty (hence absent) map — the marker deleted
the base entry and was itself consumed — but a second rebase on the same
base copies the base back in, resurrecting "n" = "x". -/
theorem setandelement_c3_counterexample :
    ((⟨[], some [([110], [])], none⟩ : CommonSE).rebaseCommonAttrsOn
        (some [([110], [120])])).rebaseCommonAttrsOn (some [([110], [120])]) ≠
      (⟨[], some [([110], [])], none⟩ : CommonSE).rebaseCommonAttrsOn
        (some [([110], [120])]) := by
  decide

/-- C3 (amended): `rebaseCommonAttrsOn(base)` applied twice with the same
`base` yields the same result as once, provided neither the local attribute
map nor the base binds any tag to an empty value — that is, as long as no
deletion markers are involved. (The counterexample shows the restriction is
necessary: deletion markers are consumed by the first rebase.) -/
theorem setandelement_c3_rebase_idempotent (e : CommonSE) (base : Option Smap)
    (hl : (e.attrs.getD []).Sorted) (hlv : ∀ p ∈ e.attrs.getD [], p.2 ≠ [])
    (hb : (base.getD []).Sorted) (hbv : ∀ p ∈ base.getD [], p.2 ≠ []) :
    (e.rebaseCommonAttrsOn base).rebaseCommonAttrsOn base =
      e.rebaseCommonAttrsOn base :=
  CommonSE.rebase_idem e base hl hlv hb hbv

/-- C3 witness: the amended idempotence at a concrete store and base with
non-empty values only. -/
theorem setandelement_c3_rebase_idempotent_witness :
    (((⟨[], some [([110], [120])], none⟩ : CommonSE).attrs.getD []).Sorted ∧
      (∀ p ∈ ((⟨[], some [([110], [120])], none⟩ : CommonSE).attrs.getD []),
        p.2 ≠ ([] : Str)) ∧
      ((some [([97], [98])] : Option Smap).getD []).Sorted ∧
      (∀ p ∈ ((some [([97], [98])] : Option Smap)).getD [], p.2 ≠ ([] : Str))) ∧
    ((⟨[], some [([110], [120])], none⟩ : CommonSE).rebaseCommonAttrsOn
        (some [([97], [98])])).rebaseCommonAttrsOn (some [([97], [98])]) =
      (⟨[], some [([110], [120])], none⟩ : CommonSE).rebaseCommonAttrsOn
        (some [([97], [98])]) :=
  ⟨⟨by decide, by decide, by decide, by decide⟩,
    setandelement_c3_rebase_idempotent _ _ (by decide) (by decide) (by decide)
      (by decide)⟩

/-- C4: a failed decrypt is inert. If the entity holds a non-empty encrypted
blob and the injected decrypt function reports failure on it,
`decryptAttributes` returns `false` and the entity — its blob and its
attribute map included — is exactly as before the call. -/
theorem setandelement_c4_failed_decrypt_inert (e : CommonSE) (blob : Str)
    (f : Str → Str → Bool × Smap) (hb : e.encryptedAttrs = some blob)
    (hne : blob ≠ []) (hf : (f blob e.key).1 = false) :
    e.decryptAttributes f = (false, e) := by
  have hbe : blob.isEmpty = false := by
    cases blob with
    | nil => exact absurd rfl hne
    | cons a l => rfl
  simp only [CommonSE.decryptAttributes, hb, hbe]
  simp [hf]

/-- C4 witness: a concrete entity with non-empty blob and an
always-failing decrypt function. -/
theorem setandelement_c4_failed_decrypt_inert_witness :
    ((⟨[1], none, some [9]⟩ : CommonSE).encryptedAttrs = some [9] ∧
      ([9] : Str) ≠ [] ∧
      ((fun (_ _ : Str) => ((false, []) : Bool × Smap)) [9] [1]).1 = false) ∧
    (⟨[1], none, some [9]⟩ : CommonSE).decryptAttributes
        (fun (_ _ : Str) => ((false, []) : Bool × Smap)) =
      (false, ⟨[1], none, some [9]⟩) :=
  ⟨⟨rfl, by decide, rfl⟩,
    setandelement_c4_failed_decrypt_inert _ [9] _ rfl (by decide) rfl⟩

/-- C5: Member attribute retention. When the incoming Member carries no
attribute map, `updateWith` leaves the local attributes untouched unless the
incoming `attrsClearedByLastUpdate` flag is set, in which case the local
attributes are replaced by the (absent, hence empty) incoming attributes. -/
theorem setandelement_c5_member_attr_retention (el incoming : SetElement)
    (hinc : incoming.attrs = none) :
    (incoming.attrsClearedByLastUpdate = false →
      (el.updateWith incoming).1.attrs = el.attrs) ∧
    (incoming.attrsClearedByLastUpdate = true →
      (el.updateWith incoming).1.attrs = none) := by
  constructor <;> intro hflag <;>
    by_cases ho : incoming.order.isSome <;>
      simp [SetElement.updateWith, hinc, hflag, ho, SetElement.setOrder_attrs]

/-- C5 witness: a local Member with attributes and an attribute-less
incoming Member, for both values of the cleared flag. -/
theorem setandelement_c5_member_attr_retention_witness :
    ((⟨1, 2, 3, none, 9, [], none, none, false, 0⟩ : SetElement).attrs = none ∧
      (⟨1, 2, 3, none, 9, [], none, none, true, 0⟩ : SetElement).attrs = none) ∧
    ((⟨1, 2, 3, none, 4, [], some [([110], [65])], none, false, 0⟩ :
        SetElement).updateWith
        ⟨1, 2, 3, none, 9, [], none, none, false, 0⟩).1.attrs =
      some [([110], [65])] ∧
    ((⟨1, 2, 3, none, 4, [], some [([110], [65])], none, false, 0⟩ :
        SetElement).updateWith
        ⟨1, 2, 3, none, 9, [], none, none, true, 0⟩).1.attrs = none :=
  ⟨⟨rfl, rfl⟩,
    (setandelement_c5_member_attr_retention _ _ rfl).1 rfl,
    (setandelement_c5_member_attr_retention _ _ rfl).2 rfl⟩

/-- C6: `Set::updateWith` adopts the incoming timestamp unconditionally and
never touches the identity fields id, owner and key. -/
theorem setandelement_c6_updateWith_frame (s incoming : Set) :
    (s.updateWith incoming).1.ts = incoming.ts ∧
    (s.updateWith incoming).1.id = s.id ∧
    (s.updateWith incoming).1.user = s.user ∧
    (s.updateWith incoming).1.key = s.key := by
  unfold Set.updateWith
  refine ⟨?_, ?_, ?_, ?_⟩ <;> dsimp only <;> (split <;> split <;> rfl)

/-- C7 (counterexample): a malformed, wrong-length base64 cover payload does
not fail closed to the undefined sentinel. The two-character payload "AA"
decodes to the single byte 0 over the zero-initialized handle buffer, so
`cover()` returns handle 0, not `UNDEF`. -/
theorem setandelement_c7_counterexample :
    (⟨1, 2, 3, [], some [([99], [65, 65])], none, 0⟩ : Set).cover = 0 ∧
    (0 : Nat) ≠ UNDEF := by
  exact ⟨by decide, by decide⟩

/-- C7 (amended): for an absent or empty cover attribute `cover()` returns
the undefined sentinel; for a non-empty malformed payload whose base64
decoding yields fewer bytes than the handle width, `cover()` propagates no
error but returns the partially-decoded handle assembled over a
zero-initialized buffer, which is bounded below the all-ones sentinel and
hence never `UNDEF`. -/
theorem setandelement_c7_cover_fail_open (s : Set) :
    (getAttrOf s.attrs coverTag = [] → s.cover = UNDEF) ∧
    (getAttrOf s.attrs coverTag ≠ [] →
      (b64decode (getAttrOf s.attrs coverTag)).length < HANDLESIZE →
      s.cover < 2 ^ 56 ∧ s.cover ≠ UNDEF) := by
  constructor
  · intro h
    simp only [Set.cover, h]
    simp
  · intro h hlen
    simp only [Set.cover, if_pos h]
    set bs := (b64decode (getAttrOf s.attrs coverTag)).take HANDLESIZE with hbs
    have hlb : bs.length ≤ 7 := by
      rw [hbs, List.length_take]
      rw [HANDLESIZE] at hlen ⊢
      omega
    have hv : natFromBytesLE (bs ++ List.replicate (HANDLESIZE - bs.length) 0) <
        2 ^ 56 := by
      rw [natFromBytesLE_append_zeros]
      calc natFromBytesLE bs < 2 ^ (8 * bs.length) := natFromBytesLE_lt bs
      _ ≤ 2 ^ 56 := Nat.pow_le_pow_right (by omega) (by omega)
    refine ⟨hv, ?_⟩
    rw [UNDEF]
    have : (2:Nat) ^ 56 < 2 ^ 64 - 1 := by norm_num
    omega

/-- C7 witness: the confirmed halves at concrete Collections — an absent
cover attribute yields `UNDEF`, and the malformed payload "AA" (decoding to
one byte, fewer than the 8-byte handle width) yields a non-`UNDEF` handle. -/
theorem setandelement_c7_cover_fail_open_witness :
    (getAttrOf (⟨1, 2, 3, [], none, none, 0⟩ : Set).attrs coverTag = [] ∧
      (⟨1, 2, 3, [], none, none, 0⟩ : Set).cover = UNDEF) ∧
    (getAttrOf (⟨1, 2, 3, [], some [([99], [65, 65])], none, 0⟩ : Set).attrs
        coverTag ≠ [] ∧
      (b64decode (getAttrOf
        (⟨1, 2, 3, [], some [([99], [65, 65])], none, 0⟩ : Set).attrs
        coverTag)).length < HANDLESIZE ∧
      (⟨1, 2, 3, [], some [([99], [65, 65])], none, 0⟩ : Set).cover ≠ UNDEF) :=
  ⟨⟨rfl, (setandelement_c7_cover_fail_open _).1 rfl⟩,
    ⟨by decide, by decide,
      ((setandelement_c7_cover_fail_open _).2 (by decide) (by decide)).2⟩⟩

/-- C8: `setOrder` semantics. A Member with no order assigned installs any
value — including 0 — and sets the order-change bit; a Member with an order
updates and sets the bit exactly when the new value differs, and an equal
value changes nothing at all. -/
theorem setandelement_c8_setOrder (el : SetElement) (v : Int) :
    (el.order = none →
      (el.setOrder v).order = some v ∧
      (el.setOrder v).changes.testBit CH_EL_ORDER = true) ∧
    (∀ o : Int, el.order = some o → o ≠ v →
      (el.setOrder v).order = some v ∧
      (el.setOrder v).changes.testBit CH_EL_ORDER = true) ∧
    (∀ o : Int, el.order = some o → o = v → el.setOrder v = el) := by
  have hbit : ∀ c : Nat, (setChangedBits c CH_EL_ORDER).testBit CH_EL_ORDER
      = true := by
    intro c
    rw [setChangedBits, CH_EL_ORDER]
    have h2 : (1 <<< 1 : Nat) = 2 := rfl
    have h3 : Nat.testBit 2 1 = true := by decide
    rw [h2, Nat.testBit_or, h3, Bool.or_true]
  refine ⟨fun h => ?_, fun o h hne => ?_, fun o h he => ?_⟩
  · simp only [SetElement.setOrder, h]
    exact ⟨trivial, hbit el.changes⟩
  · simp only [SetElement.setOrder, h, if_pos hne]
    exact ⟨trivial, hbit el.changes⟩
  · simp only [SetElement.setOrder, h, he]
    simp

/-- C8 witness: first assignment of order 0 marks the change bit; a
differing reassignment marks it; an equal reassignment is a no-op. -/
theorem setandelement_c8_setOrder_witness :
    ((⟨1, 2, 3, none, 4, [], none, none, false, 0⟩ : SetElement).order = none ∧
      ((⟨1, 2, 3, none, 4, [], none, none, false, 0⟩ : SetElement).setOrder
          0).order = some 0 ∧
      ((⟨1, 2, 3, none, 4, [], none, none, false, 0⟩ : SetElement).setOrder
          0).changes.testBit CH_EL_ORDER = true) ∧
    ((⟨1, 2, 3, some 5, 4, [], none, none, false, 0⟩ : SetElement).setOrder
        7).order = some 7 ∧
    (⟨1, 2, 3, some 5, 4, [], none, none, false, 0⟩ : SetElement).setOrder 5 =
      ⟨1, 2, 3, some 5, 4, [], none, none, false, 0⟩ :=
  ⟨⟨rfl, (setandelement_c8_setOrder _ 0).1 rfl⟩,
    ((setandelement_c8_setOrder _ 7).2.1 5 rfl (by decide)).1,
    (setandelement_c8_setOrder _ 5).2.2 5 rfl rfl⟩

/-- C9: decrypting an empty (but present) blob succeeds without consulting
the decrypt callback — the result does not depend on `f` at all — and leaves
the entity with a present-but-empty attribute map and no blob. -/
theorem setandelement_c9_decrypt_empty_blob (e : CommonSE)
    (hb : e.encryptedAttrs = some []) (f : Str → Str → Bool × Smap) :
    e.decryptAttributes f =
      (true, { e with attrs := some [], encryptedAttrs := none }) := by
  simp [CommonSE.decryptAttributes, hb]

/-- C9 witness: a concrete entity with an empty blob, decrypted with an
always-failing callback — which is never consulted. -/
theorem setandelement_c9_decrypt_empty_blob_witness :
    ((⟨[1], none, some []⟩ : CommonSE).encryptedAttrs = some [] ∧
      (⟨[1], none, some []⟩ : CommonSE).decryptAttributes
          (fun _ _ => (false, [])) = (true, ⟨[1], some [], none⟩)) :=
  ⟨rfl, setandelement_c9_decrypt_empty_blob _ rfl _⟩

/-- C1 (counterexample): the round-trip is not field-for-field for a Member
whose order was never assigned. Decoding always runs `setOrder` on the wire
value (0 for a logically unset order), so the decoded Member has
`order = some 0` where the original had no order — the two differ in the
order field even under empty-vs-absent attribute normalization. -/
theorem setandelement_c1_counterexample :
    SetElement.unserialize (SetElement.serialize
        (⟨1, 2, 3, none, 4, [], none, none, false, 0⟩ : SetElement)) =
      some ⟨1, 2, 3, some 0, 4, [], some [], none, false, 2⟩ ∧
    ¬ SetElement.equiv
        (⟨1, 2, 3, some 0, 4, [], some [], none, false, 2⟩ : SetElement)
        ⟨1, 2, 3, none, 4, [], none, none, false, 0⟩ := by
  exact ⟨by decide, by decide⟩

/-- C1 (amended): decoding the encoding of any fully-constructed,
well-formed Collection yields a Collection equal field-for-field under
empty-vs-absent attribute normalization; for a Member all fields come back
equal under the same normalization except that the decoded order is always
present — it equals the original order when one was assigned and is 0 when
the original had none. -/
theorem setandelement_c1_roundtrip :
    (∀ s : Set, s.Wf → ∃ s', Set.unserialize (Set.serialize s) = some s' ∧
      Set.equiv s' s) ∧
    (∀ el : SetElement, el.Wf → ∃ el',
      SetElement.unserialize (SetElement.serialize el) = some el' ∧
      el'.setId = el.setId ∧ el'.id = el.id ∧ el'.nodeHandle = el.nodeHandle ∧
      el'.ts = el.ts ∧ el'.key = el.key ∧ attrsEquiv el'.attrs el.attrs ∧
      el'.order = some (el.order.getD 0)) := by
  constructor
  · intro s hw
    refine ⟨⟨s.id, s.user, s.ts, s.key, some (s.attrs.getD []), none, 0⟩,
      ?_, rfl, rfl, rfl, rfl, rfl⟩
    rw [Set.unserialize, Set.set_roundtripR s hw]
    rfl
  · intro el hw
    refine ⟨{ SetElement.setOrder
        ⟨el.setId, el.id, el.nodeHandle, none, 0, el.key,
          some (el.attrs.getD []), none, false, 0⟩ (el.order.getD 0)
        with ts := el.ts }, ?_, rfl, rfl, rfl, rfl, rfl, rfl, rfl⟩
    rw [SetElement.unserialize, SetElement.element_roundtripR el hw]
    rfl

/-- C1 witness: the amended round-trip at a concrete Collection and a
concrete Member (with assigned order), both carrying one attribute. -/
theorem setandelement_c1_roundtrip_witness :
    ((⟨1, 2, 3, [7], some [([110], [65])], none, 0⟩ : Set).Wf ∧
      (⟨1, 2, 3, some 5, 4, [7], some [([110], [65])], none, false, 0⟩ :
        SetElement).Wf) ∧
    (∃ s', Set.unserialize (Set.serialize
        ⟨1, 2, 3, [7], some [([110], [65])], none, 0⟩) = some s' ∧
      Set.equiv s' ⟨1, 2, 3, [7], some [([110], [65])], none, 0⟩) ∧
    (∃ el', SetElement.unserialize (SetElement.serialize
        ⟨1, 2, 3, some 5, 4, [7], some [([110], [65])], none, false, 0⟩) =
          some el' ∧
      el'.setId = 1 ∧ el'.id = 2 ∧ el'.nodeHandle = 3 ∧ el'.ts = 4 ∧
      el'.key = [7] ∧
      attrsEquiv el'.attrs (some [([110], [65])]) ∧
      el'.order = some ((some (5:Int)).getD 0)) :=
  ⟨⟨by decide, by decide⟩,
    setandelement_c1_roundtrip.1 _ (by decide),
    setandelement_c1_roundtrip.2 _ (by decide)⟩

/-- C2: a short, truncated or malformed-count input never yields a value —
a partial object is never exposed. In detail, for each of the two record
types: (i) cutting any input the decoder accepts — canonical encoding or not
— anywhere strictly inside its consumed region makes the decode fail, which
covers every short read, truncated string and truncated count, and in
particular every strict prefix of a well-formed entity's encoding; (ii) a
malformed compressed count byte (claiming more than the 8 bytes of a 64-bit
value) at the timestamp field aborts the whole decode regardless of what
precedes and follows it, even with ample following bytes; (iii) an attribute
count claiming more pairs than the remaining bytes can possibly hold aborts
the whole decode for every shape of the preceding fields. -/
theorem setandelement_c2_truncated_decode_fails :
    ((∀ (d : List Nat) (x : Set) (r : List Nat),
        Set.unserializeR d = some (x, r) → ∀ k, k < d.length - r.length →
        Set.unserialize (d.take k) = none) ∧
      (∀ (d : List Nat) (x : SetElement) (r : List Nat),
        SetElement.unserializeR d = some (x, r) → ∀ k, k < d.length - r.length →
        SetElement.unserialize (d.take k) = none)) ∧
    ((∀ s : Set, s.Wf → ∀ k, k < (Set.serialize s).length →
        Set.unserialize ((Set.serialize s).take k) = none) ∧
      (∀ el : SetElement, el.Wf → ∀ k, k < (SetElement.serialize el).length →
        SetElement.unserialize ((SetElement.serialize el).take k) = none)) ∧
    ((∀ b1 b2 : List Nat, b1.length = 8 → b2.length = 8 →
        ∀ c, 8 < c → ∀ tail : List Nat,
        Set.unserialize (b1 ++ (b2 ++ (c :: tail))) = none) ∧
      (∀ b1 b2 b3 b4 : List Nat, b1.length = 8 → b2.length = 8 →
        b3.length = 6 → b4.length = 8 → ∀ c, 8 < c → ∀ tail : List Nat,
        SetElement.unserialize (b1 ++ (b2 ++ (b3 ++ (b4 ++ (c :: tail))))) =
          none)) ∧
    ((∀ b1 b2 : List Nat, b1.length = 8 → b2.length = 8 →
        ∀ (c : Nat) (p : List Nat), c ≤ 8 → p.length = c →
        ∀ lb s : List Nat, lb.length = 2 → s.length = natFromBytesLE lb →
        ∀ nb : List Nat, nb.length = 4 →
        ∀ tail : List Nat, tail.length < 4 * natFromBytesLE nb →
        Set.unserialize
          (b1 ++ (b2 ++ ((c :: p) ++ ((lb ++ s) ++ (nb ++ tail))))) = none) ∧
      (∀ b1 b2 b3 b4 : List Nat, b1.length = 8 → b2.length = 8 →
        b3.length = 6 → b4.length = 8 →
        ∀ (c : Nat) (p : List Nat), c ≤ 8 → p.length = c →
        ∀ lb s : List Nat, lb.length = 2 → s.length = natFromBytesLE lb →
        ∀ nb : List Nat, nb.length = 4 →
        ∀ tail : List Nat, tail.length < 4 * natFromBytesLE nb →
        SetElement.unserialize
          (b1 ++ (b2 ++ (b3 ++ (b4 ++
            ((c :: p) ++ ((lb ++ s) ++ (nb ++ tail))))))) = none)) :=
  ⟨⟨fun _ _ _ h k hk => Set.set_decode_truncation h k hk,
      fun _ _ _ h k hk => SetElement.element_decode_truncation h k hk⟩,
    ⟨fun s hw k hk => Set.set_prefix_decode_none s hw k hk,
      fun el hw k hk => SetElement.element_prefix_decode_none el hw k hk⟩,
    ⟨fun b1 b2 h1 h2 c hc tail => Set.set_malformed_count b1 b2 h1 h2 c hc tail,
      fun b1 b2 b3 b4 h1 h2 h3 h4 c hc tail =>
        SetElement.element_malformed_count b1 b2 b3 b4 h1 h2 h3 h4 c hc tail⟩,
    ⟨fun b1 b2 h1 h2 c p hc hp lb s hlb hs nb hnb tail htail =>
        Set.set_malformed_attrcount b1 b2 h1 h2 c p hc hp lb s hlb hs nb hnb
          tail htail,
      fun b1 b2 b3 b4 h1 h2 h3 h4 c p hc hp lb s hlb hs nb hnb tail htail =>
        SetElement.element_malformed_attrcount b1 b2 b3 b4 h1 h2 h3 h4 c p hc
          hp lb s hlb hs nb hnb tail htail⟩⟩

/-- C2 witness: concrete failure of each class — truncating a decodable
Collection input carrying trailing garbage and a canonical Member encoding;
a compressed count byte of 9 at the timestamp position of both record types,
followed by nine further bytes; and an attribute count of 65535 over an
empty remainder in both record types. -/
theorem setandelement_c2_truncated_decode_fails_witness :
    (Set.unserializeR ((Set.serialize
          ⟨1, 2, 3, [7], some [([110], [65])], none, 0⟩) ++ [0, 0, 0]) =
        some (⟨1, 2, 3, [7], some [([110], [65])], none, 0⟩, [0, 0, 0]) ∧
      (⟨1, 2, 3, some 5, 4, [7], some [([110], [65])], none, false, 0⟩ :
        SetElement).Wf) ∧
    Set.unserialize (((Set.serialize
        ⟨1, 2, 3, [7], some [([110], [65])], none, 0⟩) ++ [0, 0, 0]).take 3) =
      none ∧
    SetElement.unserialize ((SetElement.serialize
        ⟨1, 2, 3, some 5, 4, [7], some [([110], [65])], none, false, 0⟩).take
        50) = none ∧
    Set.unserialize (List.replicate 8 0 ++ (List.replicate 8 0 ++
        (9 :: List.replicate 9 0))) = none ∧
    SetElement.unserialize (List.replicate 8 0 ++ (List.replicate 8 0 ++
        (List.replicate 6 0 ++ (List.replicate 8 0 ++
          (9 :: List.replicate 9 0))))) = none ∧
    Set.unserialize (List.replicate 8 0 ++ (List.replicate 8 0 ++
        (([1] ++ [5]) ++ (([0, 0] ++ []) ++ ([255, 255, 0, 0] ++ []))))) =
      none ∧
    SetElement.unserialize (List.replicate 8 0 ++ (List.replicate 8 0 ++
        (List.replicate 6 0 ++ (List.replicate 8 0 ++
          (([1] ++ [5]) ++ (([0, 0] ++ []) ++
            ([255, 255, 0, 0] ++ []))))))) = none :=
  ⟨⟨by decide, by decide⟩,
    setandelement_c2_truncated_decode_fails.1.1 _
      ⟨1, 2, 3, [7], some [([110], [65])], none, 0⟩ [0, 0, 0] (by decide) 3
      (by decide),
    setandelement_c2_truncated_decode_fails.2.1.2 _ (by decide) 50 (by decide),
    setandelement_c2_truncated_decode_fails.2.2.1.1 _ _ (by decide)
      (by decide) 9 (by decide) (List.replicate 9 0),
    setandelement_c2_truncated_decode_fails.2.2.1.2 _ _ _ _ (by decide)
      (by decide) (by decide) (by decide) 9 (by decide) (List.replicate 9 0),
    setandelement_c2_truncated_decode_fails.2.2.2.1 _ _ (by decide)
      (by decide) 1 [5] (by decide) (by decide) [0, 0] [] (by decide)
      (by decide) [255, 255, 0, 0] (by decide) [] (by decide),
    setandelement_c2_truncated_decode_fails.2.2.2.2 _ _ _ _ (by decide)
      (by decide) (by decide) (by decide) 1 [5] (by decide) (by decide)
      [0, 0] [] (by decide) (by decide) [255, 255, 0, 0] (by decide) []
      (by decide)⟩

/-- C10: every Member that `SetElement::unserialize` decodes successfully
has its order present — `setOrder` is always run on the i64 read from the
wire, so a Member whose order was logically unset comes back with order
explicitly 0 — and, the decoded element being freshly constructed, the
order-change bit is marked. -/
theorem setandelement_c10_decoded_member_order (d : List Nat)
    (el : SetElement) (h : SetElement.unserialize d = some el) :
    el.order.isSome = true ∧ el.changes.testBit CH_EL_ORDER = true := by
  rw [SetElement.unserialize] at h
  cases hr : SetElement.unserializeR d with
  | none => rw [hr] at h; exact Option.noConfusion h
  | some xr =>
    obtain ⟨x, r⟩ := xr
    rw [hr] at h
    injection h with h
    rw [SetElement.unserializeR] at hr
    cases h1 : readHandle d with
    | none => simp [h1] at hr
    | some x1 =>
      obtain ⟨sid, d1⟩ := x1
      simp only [h1] at hr
      cases h2 : readHandle d1 with
      | none => simp [h2] at hr
      | some x2 =>
        obtain ⟨eid, d2⟩ := x2
        simp only [h2] at hr
        cases h3 : readNodeHandle d2 with
        | none => simp [h3] at hr
        | some x3 =>
          obtain ⟨nh, d3⟩ := x3
          simp only [h3] at hr
          cases h4 : readI64 d3 with
          | none => simp [h4] at hr
          | some x4 =>
            obtain ⟨o, d4⟩ := x4
            simp only [h4] at hr
            cases h5 : readCompressed64 d4 with
            | none => simp [h5] at hr
            | some x5 =>
              obtain ⟨ts, d5⟩ := x5
              simp only [h5] at hr
              cases h6 : readString d5 with
              | none => simp [h6] at hr
              | some x6 =>
                obtain ⟨k, d6⟩ := x6
                simp only [h6] at hr
                cases h7 : readU32 d6 with
                | none => simp [h7] at hr
                | some x7 =>
                  obtain ⟨cnt, d7⟩ := x7
                  simp only [h7] at hr
                  cases h8 : readPairs cnt d7 with
                  | none => simp [h8] at hr
                  | some x8 =>
                    obtain ⟨ps, d8⟩ := x8
                    simp only [h8] at hr
                    cases h9 : readExpansionFlags d8 with
                    | none => simp [h9] at hr
                    | some x9 =>
                      obtain ⟨fl, d9⟩ := x9
                      simp only [h9, Option.some_inj, Prod.mk.injEq] at hr
                      rw [← h, ← hr.1]
                      constructor
                      · rfl
                      · have hbit : Nat.testBit 2 1 = true := by decide
                        simpa [SetElement.setOrder, setChangedBits,
                          CH_EL_ORDER, Nat.testBit_or] using hbit

/-- C10 witness: a concrete valid Member encoding decodes with order present
and the order-change bit marked. -/
theorem setandelement_c10_decoded_member_order_witness :
    SetElement.unserialize (SetElement.serialize
        (⟨1, 2, 3, some 5, 4, [7], some [([110], [65])], none, false, 0⟩ :
          SetElement)) =
      some ⟨1, 2, 3, some 5, 4, [7], some [([110], [65])], none, false, 2⟩ ∧
    ((some (5:Int)).isSome = true ∧
      Nat.testBit 2 CH_EL_ORDER = true) :=
  ⟨by decide,
    setandelement_c10_decoded_member_order
      (SetElement.serialize
        ⟨1, 2, 3, some 5, 4, [7], some [([110], [65])], none, false, 0⟩)
      ⟨1, 2, 3, some 5, 4, [7], some [([110], [65])], none, false, 2⟩
      (by decide)⟩

end SetAndElement
